import Mathlib

/-!
customcsv: the `read_csv_file` pipeline of `src/customcsv.c`

A shallow embedding of the C extension function `read_csv_file`:
bounded line acquisition with `fgets`, tokenisation with `strtok`,
stripping of trailing line terminators, strict UTF-8 decoding, and
accumulation of the rows.

Conventions of the model.

* A byte is a natural number below 256; a file is the list of its bytes.
  The stream is opened on a POSIX system, where mode `"r"` performs no
  translation of the bytes.
* A decoded text (a Python `str`) is the list of its code points.
* Allocation (`PyList_New`) and `PyList_Append` are taken to succeed; a
  read from an open stream is taken not to fail.
-/

namespace CustomCsv

/-! ## Data model -/

/-- A byte of the file, a value below 256. -/
abbrev Byte := Nat

/-- A decoded text value: the list of its Unicode code points. -/
abbrev Field := List Nat

/-- One row: the fields of one raw line. -/
abbrev Row := List Field

/-- The whole result: the rows in the order they were appended. -/
abbrev Document := List Row

/-- The exceptions `read_csv_file` can raise (lines 10, 20, 29/45, 69, 80/97). -/
inductive Error
  | typeError
  | fileNotFound (path : List Byte)
  | noMemory
  | unicodeError
  | runtimeError
  deriving DecidableEq, Repr

/-- Line feed. -/
abbrev LF : Byte := 10

/-- Carriage return. -/
abbrev CR : Byte := 13

/-- The delimiter byte `,`. -/
abbrev COMMA : Byte := 44

/-! ## The C library: `fgets`, C strings, `strtok` -/

/-- The copying loop of `fgets`: at most `k` bytes are taken from the stream,
and the loop stops after a line feed or at end of file.  The result is the
bytes stored in the buffer and the unread rest of the stream. -/
def fgetsLoop : Nat → List Byte → List Byte × List Byte
  | 0, s => ([], s)
  | _ + 1, [] => ([], [])
  | k + 1, b :: s =>
    if b = LF then ([b], s)
    else (b :: (fgetsLoop k s).1, (fgetsLoop k s).2)

/-- The call `fgets(line, size, file)`: `none` (a null pointer) when the stream
is at end of file, otherwise the bytes stored in `line` (a zero byte is stored
after them) and the rest of the stream.  At most `size - 1` bytes are read. -/
def fgets (size : Nat) (s : List Byte) : Option (List Byte × List Byte) :=
  match s with
  | [] => none
  | _ :: _ => some (fgetsLoop (size - 1) s)

/-- The C string that starts at a buffer holding `buf` followed by a zero
byte: the bytes before the first zero byte. -/
def cString (buf : List Byte) : List Byte :=
  buf.takeWhile (fun b => b != 0)

/-- One call of `strtok` with the single delimiter `delim`, on the C string
`s` that starts at the scan position (the argument of the first call, the
saved position of the later ones).  Leading delimiters are skipped; `none`
(a null pointer) when nothing is left; otherwise the token, which runs up to
the next delimiter or the end, and the new saved position, just after that
delimiter. -/
def strtok (delim : Byte) (s : List Byte) : Option (List Byte × List Byte) :=
  match s.dropWhile (fun b => b == delim) with
  | [] => none
  | b :: t =>
    some ((b :: t).takeWhile (fun c => c != delim),
          ((b :: t).dropWhile (fun c => c != delim)).drop 1)

/-! ## CPython: strict UTF-8 decoding -/

/-- A UTF-8 continuation byte, `0x80 .. 0xBF`. -/
def isCont (b : Byte) : Bool := decide (0x80 ≤ b ∧ b ≤ 0xBF)

/-- The code point of a two-byte sequence. -/
def cp2 (b0 b1 : Byte) : Nat := (b0 - 0xC0) * 64 + (b1 - 0x80)

/-- The code point of a three-byte sequence. -/
def cp3 (b0 b1 b2 : Byte) : Nat := (b0 - 0xE0) * 4096 + (b1 - 0x80) * 64 + (b2 - 0x80)

/-- The code point of a four-byte sequence. -/
def cp4 (b0 b1 b2 b3 : Byte) : Nat :=
  (b0 - 0xF0) * 262144 + (b1 - 0x80) * 4096 + (b2 - 0x80) * 64 + (b3 - 0x80)

/-- The call `PyUnicode_DecodeUTF8(token, token_len, "strict")` of CPython, a
library function that is not part of the repository: the code points of a
well-formed UTF-8 byte sequence, and `none` (a null pointer, with an exception
set) on any ill-formed sequence: a stray continuation byte, a truncated
sequence, an overlong form, a surrogate, or a value above `0x10FFFF`. -/
def decodeUTF8 : List Byte → Option Field
  | [] => some []
  | b0 :: bs =>
    if b0 < 0x80 then (decodeUTF8 bs).map (fun r => b0 :: r)
    else if 0xC2 ≤ b0 ∧ b0 ≤ 0xDF then
      match bs with
      | b1 :: r =>
        if isCont b1 then (decodeUTF8 r).map (fun t => cp2 b0 b1 :: t) else none
      | _ => none
    else if 0xE0 ≤ b0 ∧ b0 ≤ 0xEF then
      match bs with
      | b1 :: b2 :: r =>
        if isCont b1 ∧ isCont b2 ∧ 0x800 ≤ cp3 b0 b1 b2
            ∧ ¬ (0xD800 ≤ cp3 b0 b1 b2 ∧ cp3 b0 b1 b2 ≤ 0xDFFF) then
          (decodeUTF8 r).map (fun t => cp3 b0 b1 b2 :: t)
        else none
      | _ => none
    else if 0xF0 ≤ b0 ∧ b0 ≤ 0xF4 then
      match bs with
      | b1 :: b2 :: b3 :: r =>
        if isCont b1 ∧ isCont b2 ∧ isCont b3 ∧ 0x10000 ≤ cp4 b0 b1 b2 b3
            ∧ cp4 b0 b1 b2 b3 ≤ 0x10FFFF then
          (decodeUTF8 r).map (fun t => cp4 b0 b1 b2 b3 :: t)
        else none
      | _ => none
    else none

/-! ## `read_csv_file` -/

/-- The loop of lines 59-62 on the variable `token_len`: it is decremented
while the byte before it is a line feed or a carriage return. -/
def stripLen (token : List Byte) : Nat → Nat
  | 0 => 0
  | n + 1 =>
    if token[n]? = some LF ∨ token[n]? = some CR then stripLen token n else n + 1

/-- The token after lines 56-62: its first `token_len` bytes. -/
def stripToken (token : List Byte) : List Byte :=
  token.take (stripLen token token.length)

/-- The token loop of lines 52-91.  `s` is the C string at the scan position of
`strtok`, `row` the list built so far; `fuel` bounds the number of iterations
(`rowLoop_fuel`: the length of `s` is always enough). -/
def rowLoop : Nat → List Byte → Row → Except Error Row
  | 0, _, row => .ok row
  | fuel + 1, s, row =>
    match strtok COMMA s with
    | none => .ok row
    | some (token, rest) =>
      match decodeUTF8 (stripToken token) with
      | none => .error .unicodeError
      | some item => rowLoop fuel rest (row ++ [item])

/-- The body of the line loop up to line 91: the row of one raw line, the
bytes that `fgets` stored in `line`. -/
def parseLine (line : List Byte) : Except Error Row :=
  rowLoop (cString line).length (cString line) []

/-- The line loop of lines 38-105.  `file` is the unread rest of the stream,
`result` the list built so far; `fuel` bounds the number of iterations
(`readLoop_fuel`: the length of `file` is always enough). -/
def readLoop : Nat → List Byte → Document → Except Error Document
  | 0, _, result => .ok result
  | fuel + 1, file, result =>
    match fgets 4096 file with
    | none => .ok result
    | some (line, file') =>
      match parseLine line with
      | .error e => .error e
      | .ok row => readLoop fuel file' (result ++ [row])

/-- Lines 24-111 of `read_csv_file`, on an opened stream with the given
content. -/
def readStream (content : List Byte) : Except Error Document :=
  readLoop content.length content []

/-- The function `read_csv_file`.  The argument tuple is modelled by
`arg`, `none` when `PyArg_ParseTuple` rejects it; `fopen` gives the content
of the file at a path, `none` when it cannot be opened for reading. -/
def read_csv_file (fopen : List Byte → Option (List Byte)) (arg : Option (List Byte)) :
    Except Error Document :=
  match arg with
  | none => .error .typeError
  | some file_path =>
    match fopen file_path with
    | none => .error (.fileNotFound file_path)
    | some content => readStream content

/-- The number of raw lines that the line loop of lines 38-105 reads from
the stream before it ends: every call of `fgets` that stores a line counts,
the one whose row fails to decode included, after which the function returns. -/
def linesReadLoop : Nat → List Byte → Nat
  | 0, _ => 0
  | fuel + 1, file =>
    match fgets 4096 file with
    | none => 0
    | some (line, file') =>
      match parseLine line with
      | .error _ => 1
      | .ok _ => 1 + linesReadLoop fuel file'

/-- The number of raw lines that a call of `read_csv_file` reads: none when
the function returns at line 11 or at line 21, before the line loop. -/
def linesRead (fopen : List Byte → Option (List Byte)) (arg : Option (List Byte)) : Nat :=
  match arg with
  | none => 0
  | some file_path =>
    match fopen file_path with
    | none => 0
    | some content => linesReadLoop content.length content

/-! ## The sequences the two loops run over -/

/-- The raw lines that the successive calls `fgets(line, 4096, file)` of the
line loop store in `line`, without the processing of the rows. -/
def rawLinesLoop : Nat → List Byte → List (List Byte)
  | 0, _ => []
  | fuel + 1, file =>
    match fgets 4096 file with
    | none => []
    | some (line, file') => line :: rawLinesLoop fuel file'

/-- The raw lines of a stream with the given content. -/
def rawLines (content : List Byte) : List (List Byte) :=
  rawLinesLoop content.length content

/-- The tokens that the token loop hands to the decoder (after lines 56-62),
without the decoding. -/
def tokenLoop : Nat → List Byte → List (List Byte)
  | 0, _ => []
  | fuel + 1, s =>
    match strtok COMMA s with
    | none => []
    | some (token, rest) => stripToken token :: tokenLoop fuel rest

/-- The tokens of one raw line, as handed to the decoder. -/
def lineTokens (line : List Byte) : List (List Byte) :=
  tokenLoop (cString line).length (cString line)

/-- Decoding of the tokens of a row in order, stopping at the first failure. -/
def decodeAll : List (List Byte) → Except Error Row
  | [] => .ok []
  | t :: ts =>
    match decodeUTF8 t with
    | none => .error .unicodeError
    | some item =>
      match decodeAll ts with
      | .error e => .error e
      | .ok row => .ok (item :: row)

/-- Processing of raw lines in order, stopping at the first failure. -/
def parseAll : List (List Byte) → Except Error Document
  | [] => .ok []
  | l :: ls =>
    match parseLine l with
    | .error e => .error e
    | .ok row =>
      match parseAll ls with
      | .error e => .error e
      | .ok doc => .ok (row :: doc)

/-! ## Reference definitions, following the words of the specification -/

/-- A line-terminator byte. -/
def isTerminator (b : Byte) : Bool := b == LF || b == CR

/-- The non-empty spans of a byte string between its delimiters. -/
def nonEmptySpans (s : List Byte) : List (List Byte) :=
  (s.splitOn COMMA).filter (fun t => t ≠ [])

/-- Reference definition of the tokens of a line: split the line on every
`,`, discard the zero-length spans, and strip from each remaining span all
trailing carriage returns and line feeds. -/
def referenceTokens (line : List Byte) : List (List Byte) :=
  (nonEmptySpans line).map (List.rdropWhile isTerminator)

/-- The physical lines of a file content, each with its terminating line
feed; the last one has none when the content does not end with a line feed. -/
def physLines : List Byte → List (List Byte)
  | [] => []
  | b :: s =>
    if b = LF then [b] :: physLines s
    else
      match physLines s with
      | [] => [[b]]
      | l :: ls => (b :: l) :: ls

/-- The content of a physical line: the line without its terminator, which is
a line feed or a carriage return followed by a line feed. -/
def lineContent (l : List Byte) : List Byte :=
  match l.reverse with
  | 10 :: 13 :: r => r.reverse
  | 10 :: r => r.reverse
  | _ => l

/-- The textbook split of a file content: each physical line, without its
terminator, split on every `,`, empty spans preserved. -/
def textbookSplit (content : List Byte) : List (List (List Byte)) :=
  (physLines content).map (fun l => (lineContent l).splitOn COMMA)

/-- The hypothesis of the textbook property: the content is ASCII, and the
content of every physical line has no delimiter at its start or its end and
no two consecutive delimiters. -/
def PlainDelimited (content : List Byte) : Prop :=
  (∀ b ∈ content, b < 128)
    ∧ ∀ l ∈ physLines content,
        (lineContent l).head? ≠ some COMMA ∧ (lineContent l).getLast? ≠ some COMMA
          ∧ ¬ [COMMA, COMMA] <:+: lineContent l

/-- The text that follows the last `,` of a line, the whole line when it has
no `,`. -/
def afterLastComma (l : List Byte) : List Byte :=
  (l.reverse.takeWhile (fun c => c != COMMA)).reverse

/-! ## Auxiliary predicates -/

/-- A line feed occurs in `s` at most as its last byte. -/
def LFOnlyLast (s : List Byte) : Prop :=
  ∀ p q : List Byte, s = p ++ LF :: q → q = []

/-- What decoding preserves: the ASCII code points of the text are bytes of
the sequence, an ASCII last code point is its last byte, and only the empty
sequence decodes to the empty text. -/
def LowPreserved (bs : List Byte) (cps : Field) : Prop :=
  (∀ c ∈ cps, c < 128 → c ∈ bs)
    ∧ (∀ c, cps.getLast? = some c → c < 128 → bs.getLast? = some c)
    ∧ (cps = [] → bs = [])

/-! ## Lemmas: `fgets` and the line loop -/

theorem decodeAll_cons (t : List Byte) (ts : List (List Byte)) :
    decodeAll (t :: ts)
      = match decodeUTF8 t with
        | none => .error .unicodeError
        | some item =>
          match decodeAll ts with
          | .error e => .error e
          | .ok row => .ok (item :: row) := rfl

theorem parseAll_cons (l : List Byte) (ls : List (List Byte)) :
    parseAll (l :: ls)
      = match parseLine l with
        | .error e => .error e
        | .ok row =>
          match parseAll ls with
          | .error e => .error e
          | .ok doc => .ok (row :: doc) := rfl

theorem fgetsLoop_append (k : Nat) (s : List Byte) :
    (fgetsLoop k s).1 ++ (fgetsLoop k s).2 = s := by
  induction k generalizing s with
  | zero => simp [fgetsLoop]
  | succ k ih =>
    cases s with
    | nil => simp [fgetsLoop]
    | cons b s =>
      by_cases hb : b = LF
      · simp [fgetsLoop, hb]
      · simp [fgetsLoop, hb, ih]

theorem fgetsLoop_ne_nil (k : Nat) (hk : 0 < k) (b : Byte) (s : List Byte) :
    (fgetsLoop k (b :: s)).1 ≠ [] := by
  obtain ⟨k, rfl⟩ := Nat.exists_eq_succ_of_ne_zero (Nat.pos_iff_ne_zero.mp hk)
  by_cases hb : b = LF <;> simp [fgetsLoop, hb]

theorem fgetsLoop_rest_length (k : Nat) (hk : 0 < k) (b : Byte) (s : List Byte) :
    (fgetsLoop k (b :: s)).2.length < s.length + 1 := by
  have h1 := fgetsLoop_append k (b :: s)
  have h2 := fgetsLoop_ne_nil k hk b s
  have h3 := congrArg List.length h1
  rw [List.length_append, List.length_cons] at h3
  have h4 : 0 < (fgetsLoop k (b :: s)).1.length := List.length_pos.mpr h2
  omega

theorem fgets_nil : fgets 4096 [] = none := rfl

theorem fgets_cons (b : Byte) (s : List Byte) :
    fgets 4096 (b :: s) = some (fgetsLoop 4095 (b :: s)) := rfl

theorem rawLinesLoop_succ_cons (fuel : Nat) (b : Byte) (s : List Byte) :
    rawLinesLoop (fuel + 1) (b :: s)
      = (fgetsLoop 4095 (b :: s)).1 :: rawLinesLoop fuel (fgetsLoop 4095 (b :: s)).2 := rfl

theorem readLoop_succ_cons (fuel : Nat) (b : Byte) (s : List Byte) (acc : Document) :
    readLoop (fuel + 1) (b :: s) acc
      = match parseLine (fgetsLoop 4095 (b :: s)).1 with
        | .error e => .error e
        | .ok row => readLoop fuel (fgetsLoop 4095 (b :: s)).2 (acc ++ [row]) := rfl

theorem rawLinesLoop_fuel (fuel : Nat) (s : List Byte) (h : s.length ≤ fuel) :
    rawLinesLoop fuel s = rawLinesLoop s.length s := by
  induction fuel using Nat.strong_induction_on generalizing s with
  | _ fuel ih =>
    cases s with
    | nil => cases fuel <;> simp [rawLinesLoop, fgets_nil]
    | cons b s =>
      cases fuel with
      | zero => simp at h
      | succ fuel =>
        have hlt := fgetsLoop_rest_length 4095 (by decide) b s
        simp only [List.length_cons] at h
        simp only [rawLinesLoop_succ_cons, List.length_cons]
        rw [ih fuel (by omega) _ (by omega), ← ih s.length (by omega) _ (by omega)]

theorem rawLines_nil : rawLines [] = [] := rfl

theorem rawLines_cons (b : Byte) (s : List Byte) :
    rawLines (b :: s)
      = (fgetsLoop 4095 (b :: s)).1 :: rawLines (fgetsLoop 4095 (b :: s)).2 := by
  have hlt := fgetsLoop_rest_length 4095 (by decide) b s
  simp only [rawLines, rawLinesLoop_succ_cons, List.length_cons]
  rw [rawLinesLoop_fuel s.length _ (by omega)]

theorem readLoop_eq (fuel : Nat) (s : List Byte) (acc : Document) :
    readLoop fuel s acc
      = match parseAll (rawLinesLoop fuel s) with
        | .error e => .error e
        | .ok doc => .ok (acc ++ doc) := by
  induction fuel generalizing s acc with
  | zero => simp [readLoop, rawLinesLoop, parseAll]
  | succ fuel ih =>
    cases s with
    | nil => simp [readLoop, rawLinesLoop, fgets_nil, parseAll]
    | cons b s =>
      rw [readLoop_succ_cons, rawLinesLoop_succ_cons]
      simp only [parseAll]
      cases parseLine (fgetsLoop 4095 (b :: s)).1 with
      | error e => rfl
      | ok row =>
        simp only [ih]
        cases parseAll (rawLinesLoop fuel (fgetsLoop 4095 (b :: s)).2) with
        | error e => rfl
        | ok doc => simp

/-- The result of `read_csv_file` is the processing of the raw lines in order. -/
theorem readStream_eq (s : List Byte) : readStream s = parseAll (rawLines s) := by
  rw [readStream, readLoop_eq, rawLines]
  cases parseAll (rawLinesLoop s.length s) <;> simp

/-- The fuel of the line loop: the length of the stream is always enough. -/
theorem readLoop_fuel (fuel : Nat) (s : List Byte) (acc : Document) (h : s.length ≤ fuel) :
    readLoop fuel s acc = readLoop s.length s acc := by
  rw [readLoop_eq, readLoop_eq, rawLinesLoop_fuel fuel s h]

/-- The line loop, unfolded once: `fgets` stores a raw line, its row is
computed, and the loop goes on with the rest of the stream. -/
theorem readStream_cons (b : Byte) (s : List Byte) :
    readStream (b :: s)
      = match parseLine (fgetsLoop 4095 (b :: s)).1 with
        | .error e => .error e
        | .ok row =>
          match readStream (fgetsLoop 4095 (b :: s)).2 with
          | .error e => .error e
          | .ok doc => .ok (row :: doc) := by
  rw [readStream_eq, readStream_eq, rawLines_cons, parseAll_cons]

/-! ## Lemmas: stripping and tokenisation -/

theorem isTerminator_iff (b : Byte) : isTerminator b = true ↔ b = LF ∨ b = CR := by
  simp [isTerminator]

theorem stripLen_take (token : List Byte) (n : Nat) (hn : n ≤ token.length) :
    token.take (stripLen token n) = (token.take n).rdropWhile isTerminator := by
  induction n with
  | zero => simp [stripLen]
  | succ n ih =>
    have hlt : n < token.length := hn
    have hget : token[n]? = some token[n] := List.getElem?_eq_getElem hlt
    rw [List.take_succ, hget, Option.toList_some, List.rdropWhile_concat, stripLen, hget]
    by_cases ht : token[n] = LF ∨ token[n] = CR
    · have h1 : isTerminator token[n] = true := (isTerminator_iff _).mpr ht
      simp only [Option.some.injEq, ht, if_true, h1]
      exact ih (Nat.le_of_lt hlt)
    · have h1 : ¬ isTerminator token[n] = true := fun h => ht ((isTerminator_iff _).mp h)
      simp only [Option.some.injEq, ht, if_false, h1]
      rw [List.take_succ, hget, Option.toList_some]
      simp

/-- Lines 56-62 remove exactly the trailing line feeds and carriage returns. -/
theorem stripToken_eq (token : List Byte) :
    stripToken token = token.rdropWhile isTerminator := by
  rw [stripToken, stripLen_take token token.length (Nat.le_refl _), List.take_length]

theorem splitOn_comma_cons (s : List Byte) :
    (COMMA :: s).splitOn COMMA = [] :: s.splitOn COMMA := by
  simp [List.splitOn]

theorem splitOn_other_cons (b : Byte) (s : List Byte) (hb : b ≠ COMMA) :
    (b :: s).splitOn COMMA = (s.splitOn COMMA).modifyHead (List.cons b) := by
  simp [List.splitOn, hb]

theorem splitOn_ne_nil (s : List Byte) : s.splitOn COMMA ≠ [] :=
  List.splitOnP_ne_nil _ _

theorem splitOn_append_cons (a b : List Byte) :
    (a ++ COMMA :: b).splitOn COMMA = a.splitOn COMMA ++ b.splitOn COMMA := by
  induction a with
  | nil => simp [splitOn_comma_cons]
  | cons x a ih =>
    by_cases hx : x = COMMA
    · subst hx
      rw [List.cons_append, splitOn_comma_cons, splitOn_comma_cons, ih, List.cons_append]
    · rw [List.cons_append, splitOn_other_cons _ _ hx, splitOn_other_cons _ _ hx, ih]
      cases h : a.splitOn COMMA with
      | nil => exact absurd h (splitOn_ne_nil a)
      | cons hd tl => simp

theorem splitOn_single (t : List Byte) (ht : COMMA ∉ t) : t.splitOn COMMA = [t] := by
  apply List.splitOnP_eq_single
  intro x hx hc
  simp only [beq_iff_eq] at hc
  exact ht (hc ▸ hx)

theorem nonEmptySpans_nil : nonEmptySpans [] = [] := by
  simp [nonEmptySpans]

theorem nonEmptySpans_append_cons (a b : List Byte) :
    nonEmptySpans (a ++ COMMA :: b) = nonEmptySpans a ++ nonEmptySpans b := by
  simp [nonEmptySpans, splitOn_append_cons]

theorem nonEmptySpans_comma_cons (s : List Byte) :
    nonEmptySpans (COMMA :: s) = nonEmptySpans s := by
  simp [nonEmptySpans, splitOn_comma_cons]

theorem nonEmptySpans_single (t : List Byte) (ht : COMMA ∉ t) (hne : t ≠ []) :
    nonEmptySpans t = [t] := by
  simp [nonEmptySpans, splitOn_single t ht, hne]

theorem strtok_comma_cons (s : List Byte) : strtok COMMA (COMMA :: s) = strtok COMMA s := by
  simp [strtok]

theorem strtok_other_cons (b : Byte) (s : List Byte) (hb : b ≠ COMMA) :
    strtok COMMA (b :: s)
      = some ((b :: s).takeWhile (fun c => c != COMMA),
              ((b :: s).dropWhile (fun c => c != COMMA)).drop 1) := by
  simp [strtok, hb]

theorem takeWhile_no_comma (s : List Byte) : COMMA ∉ s.takeWhile (fun c => c != COMMA) := by
  intro h
  have := List.mem_takeWhile_imp h
  simp at this

theorem dropWhile_comma_cases (s : List Byte) :
    s.dropWhile (fun c => c != COMMA) = []
      ∨ ∃ r, s.dropWhile (fun c => c != COMMA) = COMMA :: r := by
  induction s with
  | nil => left; rfl
  | cons x s ih =>
    by_cases hx : x = COMMA
    · right; exact ⟨s, by simp [hx]⟩
    · have : (x :: s).dropWhile (fun c => c != COMMA) = s.dropWhile (fun c => c != COMMA) := by
        simp [List.dropWhile_cons, hx]
      rw [this]; exact ih

/-- One call of `strtok` yields the first non-empty span and leaves the rest. -/
theorem strtok_spec (s : List Byte) :
    (strtok COMMA s = none ∧ nonEmptySpans s = [])
      ∨ ∃ tok rest, strtok COMMA s = some (tok, rest)
          ∧ nonEmptySpans s = tok :: nonEmptySpans rest ∧ rest.length < s.length := by
  induction s with
  | nil => left; exact ⟨rfl, nonEmptySpans_nil⟩
  | cons b s ih =>
    by_cases hb : b = COMMA
    · subst hb
      rw [strtok_comma_cons, nonEmptySpans_comma_cons]
      rcases ih with h | ⟨tok, rest, h1, h2, h3⟩
      · left; exact h
      · right; exact ⟨tok, rest, h1, h2, by simp only [List.length_cons]; omega⟩
    · right
      refine ⟨_, _, strtok_other_cons b s hb, ?_⟩
      have hsplit := List.takeWhile_append_dropWhile (fun c => c != COMMA) (b :: s)
      have hnc := takeWhile_no_comma (b :: s)
      have hne : (b :: s).takeWhile (fun c => c != COMMA) ≠ [] := by
        simp [List.takeWhile_cons, hb]
      have hlen := congrArg List.length hsplit
      rw [List.length_append] at hlen
      rcases dropWhile_comma_cases (b :: s) with h | ⟨r, h⟩
      · rw [h] at hsplit hlen
        rw [List.append_nil] at hsplit
        rw [h, List.drop_nil, nonEmptySpans_nil]
        refine ⟨?_, by simp⟩
        conv_lhs => rw [← hsplit]
        rw [hsplit]
        exact hsplit ▸ nonEmptySpans_single _ hnc hne
      · rw [h] at hsplit hlen
        rw [h]
        simp only [List.drop_succ_cons, List.drop_zero]
        refine ⟨?_, ?_⟩
        · conv_lhs => rw [← hsplit]
          rw [nonEmptySpans_append_cons, nonEmptySpans_single _ hnc hne]
          rfl
        · simp only [List.length_cons] at hlen ⊢
          omega

theorem tokenLoop_eq (fuel : Nat) (s : List Byte) (h : s.length ≤ fuel) :
    tokenLoop fuel s = (nonEmptySpans s).map stripToken := by
  induction fuel generalizing s with
  | zero =>
    have : s = [] := List.length_eq_zero.mp (Nat.le_zero.mp h)
    subst this
    simp [tokenLoop, nonEmptySpans_nil]
  | succ fuel ih =>
    rcases strtok_spec s with ⟨h1, h2⟩ | ⟨tok, rest, h1, h2, h3⟩
    · simp [tokenLoop, h1, h2]
    · simp only [tokenLoop, h1, h2, List.map_cons]
      rw [ih rest (by omega)]

theorem rowLoop_eq (fuel : Nat) (s : List Byte) (acc : Row) :
    rowLoop fuel s acc
      = match decodeAll (tokenLoop fuel s) with
        | .error e => .error e
        | .ok row => .ok (acc ++ row) := by
  induction fuel generalizing s acc with
  | zero => simp [rowLoop, tokenLoop, decodeAll]
  | succ fuel ih =>
    cases hs : strtok COMMA s with
    | none => simp [rowLoop, tokenLoop, hs, decodeAll]
    | some p =>
      obtain ⟨tok, rest⟩ := p
      simp only [rowLoop, tokenLoop, hs, decodeAll]
      cases decodeUTF8 (stripToken tok) with
      | none => rfl
      | some item =>
        simp only [ih]
        cases decodeAll (tokenLoop fuel rest) with
        | error e => rfl
        | ok row => simp

/-- The fuel of the token loop: the length of the string is always enough. -/
theorem rowLoop_fuel (fuel : Nat) (s : List Byte) (acc : Row) (h : s.length ≤ fuel) :
    rowLoop fuel s acc = rowLoop s.length s acc := by
  rw [rowLoop_eq, rowLoop_eq, tokenLoop_eq fuel s h, tokenLoop_eq _ s (Nat.le_refl _)]

/-- The tokens of a raw line are the reference tokens of its C string. -/
theorem lineTokens_eq (line : List Byte) :
    lineTokens line = referenceTokens (cString line) := by
  rw [lineTokens, tokenLoop_eq _ _ (Nat.le_refl _), referenceTokens]
  congr 1
  funext t
  exact stripToken_eq t

/-- The row of a raw line is the decoding of its tokens in order. -/
theorem parseLine_eq (line : List Byte) : parseLine line = decodeAll (lineTokens line) := by
  rw [parseLine, rowLoop_eq, lineTokens]
  cases decodeAll (tokenLoop (cString line).length (cString line)) <;> simp

theorem cString_of_no_zero (line : List Byte) (h : 0 ∉ line) : cString line = line := by
  rw [cString, List.takeWhile_eq_self_iff]
  intro b hb
  simp only [bne_iff_ne, ne_eq]
  intro h0
  exact h (h0 ▸ hb)

/-! ## Lemmas: decoding of rows and documents -/

theorem decodeAll_of_all_some (ts : List (List Byte))
    (h : ∀ t ∈ ts, (decodeUTF8 t).isSome) :
    ∃ row, decodeAll ts = .ok row ∧ ts.map decodeUTF8 = row.map some := by
  induction ts with
  | nil => exact ⟨[], rfl, rfl⟩
  | cons t ts ih =>
    obtain ⟨row, h1, h2⟩ := ih (fun u hu => h u (List.mem_cons_of_mem _ hu))
    obtain ⟨item, hitem⟩ := Option.isSome_iff_exists.mp (h t (List.mem_cons_self _ _))
    exact ⟨item :: row, by simp [decodeAll, hitem, h1], by simp [hitem, h2]⟩

theorem decodeAll_error (ts : List (List Byte)) (e : Error) (h : decodeAll ts = .error e) :
    e = .unicodeError := by
  induction ts with
  | nil => simp [decodeAll] at h
  | cons t ts ih =>
    simp only [decodeAll] at h
    cases hd : decodeUTF8 t with
    | none => rw [hd] at h; simp at h; exact h.symm
    | some item =>
      rw [hd] at h
      cases hr : decodeAll ts with
      | error e2 => rw [hr] at h; simp at h; exact ih (h ▸ hr)
      | ok row => rw [hr] at h; simp at h

theorem decodeAll_of_bad (ts : List (List Byte)) (h : ∃ t ∈ ts, decodeUTF8 t = none) :
    decodeAll ts = .error .unicodeError := by
  induction ts with
  | nil => obtain ⟨t, ht, _⟩ := h; simp at ht
  | cons t ts ih =>
    obtain ⟨u, hu, hbad⟩ := h
    simp only [decodeAll]
    cases hd : decodeUTF8 t with
    | none => rfl
    | some item =>
      have hu2 : u ∈ ts := by
        rcases List.mem_cons.mp hu with h1 | h1
        · subst h1; rw [hd] at hbad; simp at hbad
        · exact h1
      rw [ih ⟨u, hu2, hbad⟩]

theorem decodeAll_append (ts us : List (List Byte)) :
    decodeAll (ts ++ us)
      = match decodeAll ts with
        | .error e => .error e
        | .ok row =>
          match decodeAll us with
          | .error e => .error e
          | .ok row2 => .ok (row ++ row2) := by
  induction ts with
  | nil => simp only [List.nil_append, decodeAll]; cases decodeAll us <;> simp
  | cons t ts ih =>
    rw [List.cons_append, decodeAll_cons, decodeAll_cons, ih]
    cases decodeUTF8 t with
    | none => rfl
    | some item =>
      cases decodeAll ts with
      | error e => rfl
      | ok row => cases decodeAll us <;> rfl

theorem parseLine_error (l : List Byte) (e : Error) (h : parseLine l = .error e) :
    e = .unicodeError := by
  rw [parseLine_eq] at h
  exact decodeAll_error _ e h

theorem parseAll_error (ls : List (List Byte)) (e : Error) (h : parseAll ls = .error e) :
    e = .unicodeError := by
  induction ls with
  | nil => simp [parseAll] at h
  | cons l ls ih =>
    simp only [parseAll] at h
    cases hd : parseLine l with
    | error e2 =>
      rw [hd] at h; simp at h
      exact parseLine_error l e (h ▸ hd)
    | ok row =>
      rw [hd] at h
      cases hr : parseAll ls with
      | error e2 => rw [hr] at h; simp at h; exact ih (h ▸ hr)
      | ok doc => rw [hr] at h; simp at h

theorem parseAll_of_bad (ls : List (List Byte))
    (h : ∃ l ∈ ls, ∃ t ∈ lineTokens l, decodeUTF8 t = none) :
    parseAll ls = .error .unicodeError := by
  induction ls with
  | nil => obtain ⟨l, hl, _⟩ := h; simp at hl
  | cons l ls ih =>
    obtain ⟨m, hm, hbad⟩ := h
    simp only [parseAll]
    cases hd : parseLine l with
    | error e => rw [parseLine_error l e hd]
    | ok row =>
      have hm2 : m ∈ ls := by
        rcases List.mem_cons.mp hm with h1 | h1
        · subst h1
          rw [parseLine_eq, decodeAll_of_bad _ hbad] at hd
          simp at hd
        · exact h1
      rw [ih ⟨m, hm2, hbad⟩]

theorem parseAll_append (ls ms : List (List Byte)) :
    parseAll (ls ++ ms)
      = match parseAll ls with
        | .error e => .error e
        | .ok doc =>
          match parseAll ms with
          | .error e => .error e
          | .ok doc2 => .ok (doc ++ doc2) := by
  induction ls with
  | nil => simp only [List.nil_append, parseAll]; cases parseAll ms <;> simp
  | cons l ls ih =>
    rw [List.cons_append, parseAll_cons, parseAll_cons, ih]
    cases parseLine l with
    | error e => rfl
    | ok row =>
      cases parseAll ls with
      | error e => rfl
      | ok doc => cases parseAll ms <;> rfl

/-! ## Lemmas: C strings and rows of composed lines -/

theorem cString_append_of_no_zero (a b : List Byte) (h : 0 ∉ a) :
    cString (a ++ b) = a ++ cString b := by
  induction a with
  | nil => rfl
  | cons x a ih =>
    have hx : x ≠ 0 := fun hx => h (hx ▸ List.mem_cons_self _ _)
    have ha : 0 ∉ a := fun ha => h (List.mem_cons_of_mem _ ha)
    have := ih ha
    simp only [cString] at this ⊢
    simp [List.takeWhile_cons, hx, this]

theorem cString_append_of_zero (a b : List Byte) (h : 0 ∈ a) :
    cString (a ++ b) = cString a := by
  induction a with
  | nil => simp at h
  | cons x a ih =>
    by_cases hx : x = 0
    · simp [cString, List.takeWhile_cons, hx]
    · have ha : 0 ∈ a := by
        rcases List.mem_cons.mp h with h1 | h1
        · exact absurd h1.symm hx
        · exact h1
      have := ih ha
      simp only [cString] at this ⊢
      simp [List.takeWhile_cons, hx, this]

theorem referenceTokens_append_cons (a b : List Byte) :
    referenceTokens (a ++ COMMA :: b) = referenceTokens a ++ referenceTokens b := by
  simp [referenceTokens, nonEmptySpans_append_cons]

theorem referenceTokens_nil : referenceTokens [] = [] := by
  simp [referenceTokens, nonEmptySpans_nil]

/-- The row of a line cut at a delimiter: the row of the part before it
followed by the row of the part after it. -/
theorem parseLine_append_cons (a b : List Byte) (h0 : 0 ∉ a) :
    parseLine (a ++ COMMA :: b)
      = match parseLine a with
        | .error e => .error e
        | .ok row =>
          match parseLine b with
          | .error e => .error e
          | .ok row2 => .ok (row ++ row2) := by
  have hc : cString (a ++ COMMA :: b) = a ++ COMMA :: cString b := by
    rw [cString_append_of_no_zero _ _ h0]
    simp [cString, List.takeWhile_cons]
  simp only [parseLine_eq, lineTokens_eq]
  rw [hc, referenceTokens_append_cons, decodeAll_append, cString_of_no_zero a h0]

theorem parseLine_of_zero (a b : List Byte) (h0 : 0 ∈ a) :
    parseLine (a ++ b) = parseLine a := by
  simp only [parseLine_eq, lineTokens_eq, cString_append_of_zero a b h0]

theorem parseLine_nil : parseLine [] = .ok [] := rfl

theorem parseLine_comma_cons (l : List Byte) : parseLine (COMMA :: l) = parseLine l := by
  have := parseLine_append_cons [] l (by simp)
  rw [List.nil_append, parseLine_nil] at this
  rw [this]
  cases parseLine l <;> simp

/-! ## Lemmas: where `fgets` cuts -/

theorem fgetsLoop_full (k : Nat) (x r : List Byte) (hx : x.length = k) (hlf : LF ∉ x) :
    fgetsLoop k (x ++ r) = (x, r) := by
  induction k generalizing x with
  | zero =>
    have : x = [] := List.length_eq_zero.mp hx
    subst this
    simp [fgetsLoop]
  | succ k ih =>
    cases x with
    | nil => simp at hx
    | cons b x =>
      have hb : b ≠ LF := fun h => hlf (h ▸ List.mem_cons_self _ _)
      have hx2 : LF ∉ x := fun h => hlf (List.mem_cons_of_mem _ h)
      simp only [List.length_cons, Nat.add_right_cancel_iff] at hx
      simp [fgetsLoop, hb, ih x hx hx2]

theorem fgetsLoop_lf (k : Nat) (x r : List Byte) (hx : x.length < k) (hlf : LF ∉ x) :
    fgetsLoop k (x ++ LF :: r) = (x ++ [LF], r) := by
  induction k generalizing x with
  | zero => simp at hx
  | succ k ih =>
    cases x with
    | nil => simp [fgetsLoop]
    | cons b x =>
      have hb : b ≠ LF := fun h => hlf (h ▸ List.mem_cons_self _ _)
      have hx2 : LF ∉ x := fun h => hlf (List.mem_cons_of_mem _ h)
      simp only [List.length_cons, Nat.add_lt_add_iff_right] at hx
      simp [fgetsLoop, hb, ih x hx hx2]

theorem fgetsLoop_eof (k : Nat) (x : List Byte) (hx : x.length ≤ k) (hlf : LF ∉ x) :
    fgetsLoop k x = (x, []) := by
  induction k generalizing x with
  | zero =>
    have : x = [] := List.length_eq_zero.mp (Nat.le_zero.mp hx)
    subst this
    simp [fgetsLoop]
  | succ k ih =>
    cases x with
    | nil => simp [fgetsLoop]
    | cons b x =>
      have hb : b ≠ LF := fun h => hlf (h ▸ List.mem_cons_self _ _)
      have hx2 : LF ∉ x := fun h => hlf (List.mem_cons_of_mem _ h)
      simp only [List.length_cons, Nat.add_le_add_iff_right] at hx
      simp [fgetsLoop, hb, ih x hx hx2]

theorem fgetsLoop_append_right (k : Nat) (s t : List Byte) (hs : s.getLast? = some LF) :
    fgetsLoop k (s ++ t) = ((fgetsLoop k s).1, (fgetsLoop k s).2 ++ t) := by
  induction k generalizing s with
  | zero => simp [fgetsLoop]
  | succ k ih =>
    cases s with
    | nil => simp at hs
    | cons b s =>
      by_cases hb : b = LF
      · simp [fgetsLoop, hb]
      · cases s with
        | nil => simp at hs; exact absurd hs hb
        | cons c s =>
          have hs2 : (c :: s).getLast? = some LF := by
            rw [List.getLast?_cons_cons] at hs; exact hs
          have := ih (c :: s) hs2
          simp only [List.cons_append] at this ⊢
          simp [fgetsLoop, hb, this]

theorem fgetsLoop_rest_getLast (k : Nat) (s : List Byte) (hs : s.getLast? = some LF) :
    (fgetsLoop k s).2 = [] ∨ (fgetsLoop k s).2.getLast? = some LF := by
  have h := fgetsLoop_append k s
  by_cases hr : (fgetsLoop k s).2 = []
  · left; exact hr
  · right
    rw [← h, List.getLast?_append_of_ne_nil _ hr] at hs
    exact hs

theorem rawLines_full (x r : List Byte) (hx : x.length = 4095) (hlf : LF ∉ x) :
    rawLines (x ++ r) = x :: rawLines r := by
  cases x with
  | nil => simp at hx
  | cons b x =>
    rw [List.cons_append, rawLines_cons, ← List.cons_append, fgetsLoop_full 4095 _ r hx hlf]

theorem rawLines_lf (x r : List Byte) (hx : x.length < 4095) (hlf : LF ∉ x) :
    rawLines (x ++ LF :: r) = (x ++ [LF]) :: rawLines r := by
  have h := fgetsLoop_lf 4095 x r hx hlf
  cases x with
  | nil => rw [List.nil_append] at h ⊢; rw [rawLines_cons, h]
  | cons b x => rw [List.cons_append] at h ⊢; rw [rawLines_cons, h]

theorem rawLines_eof (x : List Byte) (hne : x ≠ []) (hx : x.length ≤ 4095) (hlf : LF ∉ x) :
    rawLines x = [x] := by
  have h := fgetsLoop_eof 4095 x hx hlf
  cases x with
  | nil => exact absurd rfl hne
  | cons b x => rw [rawLines_cons, h, rawLines_nil]

/-- A content that ends with a line feed ends with a raw line: the raw lines
of what follows it are those of the rest alone. -/
theorem rawLines_append (a b : List Byte) (ha : a.getLast? = some LF) :
    rawLines (a ++ b) = rawLines a ++ rawLines b := by
  generalize hn : a.length = n
  induction n using Nat.strong_induction_on generalizing a with
  | _ n ih =>
    cases a with
    | nil => simp at ha
    | cons c a =>
      have hlt := fgetsLoop_rest_length 4095 (by decide) c a
      have happ := fgetsLoop_append_right 4095 (c :: a) b ha
      rw [List.cons_append] at happ ⊢
      rw [rawLines_cons, rawLines_cons, happ, List.cons_append]
      congr 1
      rcases fgetsLoop_rest_getLast 4095 (c :: a) ha with h | h
      · rw [h, rawLines_nil, List.nil_append, List.nil_append]
      · simp only [List.length_cons] at hn
        exact ih _ (by omega) _ h rfl

theorem exists_first_lf (s : List Byte) (h : LF ∈ s) :
    ∃ x r, s = x ++ LF :: r ∧ LF ∉ x := by
  induction s with
  | nil => simp at h
  | cons b s ih =>
    by_cases hb : b = LF
    · exact ⟨[], s, by simp [hb], by simp⟩
    · have hs : LF ∈ s := by
        rcases List.mem_cons.mp h with h1 | h1
        · exact absurd h1.symm hb
        · exact h1
      obtain ⟨x, r, h1, h2⟩ := ih hs
      refine ⟨b :: x, r, by simp [h1], ?_⟩
      intro hm
      rcases List.mem_cons.mp hm with h3 | h3
      · exact hb h3.symm
      · exact h2 h3

theorem physLines_lf (x r : List Byte) (hlf : LF ∉ x) :
    physLines (x ++ LF :: r) = (x ++ [LF]) :: physLines r := by
  induction x with
  | nil => simp [physLines]
  | cons b x ih =>
    have hb : b ≠ LF := fun h => hlf (h ▸ List.mem_cons_self _ _)
    have hx2 : LF ∉ x := fun h => hlf (List.mem_cons_of_mem _ h)
    simp [physLines, hb, ih hx2]

theorem physLines_eof (x : List Byte) (hne : x ≠ []) (hlf : LF ∉ x) :
    physLines x = [x] := by
  induction x with
  | nil => exact absurd rfl hne
  | cons b x ih =>
    have hb : b ≠ LF := fun h => hlf (h ▸ List.mem_cons_self _ _)
    have hx2 : LF ∉ x := fun h => hlf (List.mem_cons_of_mem _ h)
    cases x with
    | nil => simp [physLines, hb]
    | cons c x =>
      have h1 : physLines (b :: c :: x)
          = match physLines (c :: x) with
            | [] => [[b]]
            | l :: ls => (b :: l) :: ls := by
        simp [physLines, hb]
      rw [h1, ih (by simp) hx2]

/-- When no physical line, terminator included, exceeds 4095 bytes, the raw
lines are the physical lines. -/
theorem rawLines_eq_physLines (s : List Byte) (h : ∀ l ∈ physLines s, l.length ≤ 4095) :
    rawLines s = physLines s := by
  generalize hn : s.length = n
  induction n using Nat.strong_induction_on generalizing s with
  | _ n ih =>
    by_cases hlf : LF ∈ s
    · obtain ⟨x, r, rfl, hx⟩ := exists_first_lf s hlf
      rw [physLines_lf x r hx] at h ⊢
      have hlen := h _ (List.mem_cons_self _ _)
      simp only [List.length_append, List.length_singleton] at hlen
      rw [rawLines_lf x r (by omega) hx]
      congr 1
      simp only [List.length_append, List.length_cons] at hn
      exact ih _ (by omega) r (fun l hl => h l (List.mem_cons_of_mem _ hl)) rfl
    · by_cases hne : s = []
      · subst hne; rfl
      · rw [physLines_eof s hne hlf] at h ⊢
        exact rawLines_eof s hne (h _ (List.mem_singleton_self _)) hlf

theorem parseAll_ok_forall₂ (ls : List (List Byte)) (doc : Document)
    (h : parseAll ls = .ok doc) :
    List.Forall₂ (fun l row => parseLine l = .ok row) ls doc := by
  induction ls generalizing doc with
  | nil =>
    simp only [parseAll, Except.ok.injEq] at h
    subst h
    exact List.Forall₂.nil
  | cons l ls ih =>
    rw [parseAll_cons] at h
    cases hl : parseLine l with
    | error e => rw [hl] at h; simp at h
    | ok row =>
      rw [hl] at h
      cases hr : parseAll ls with
      | error e => rw [hr] at h; simp at h
      | ok d =>
        rw [hr] at h
        simp only [Except.ok.injEq] at h
        subst h
        exact List.Forall₂.cons hl (ih d hr)

/-! ## Lemmas: plain lines and line terminators -/

theorem decodeUTF8_cons (b0 : Byte) (bs : List Byte) :
    decodeUTF8 (b0 :: bs) =
    if b0 < 0x80 then (decodeUTF8 bs).map (fun r => b0 :: r)
    else if 0xC2 ≤ b0 ∧ b0 ≤ 0xDF then
      match bs with
      | b1 :: r =>
        if isCont b1 then (decodeUTF8 r).map (fun t => cp2 b0 b1 :: t) else none
      | _ => none
    else if 0xE0 ≤ b0 ∧ b0 ≤ 0xEF then
      match bs with
      | b1 :: b2 :: r =>
        if isCont b1 ∧ isCont b2 ∧ 0x800 ≤ cp3 b0 b1 b2
            ∧ ¬ (0xD800 ≤ cp3 b0 b1 b2 ∧ cp3 b0 b1 b2 ≤ 0xDFFF) then
          (decodeUTF8 r).map (fun t => cp3 b0 b1 b2 :: t)
        else none
      | _ => none
    else if 0xF0 ≤ b0 ∧ b0 ≤ 0xF4 then
      match bs with
      | b1 :: b2 :: b3 :: r =>
        if isCont b1 ∧ isCont b2 ∧ isCont b3 ∧ 0x10000 ≤ cp4 b0 b1 b2 b3
            ∧ cp4 b0 b1 b2 b3 ≤ 0x10FFFF then
          (decodeUTF8 r).map (fun t => cp4 b0 b1 b2 b3 :: t)
        else none
      | _ => none
    else none := by
  cases bs with
  | nil => rfl
  | cons b1 bs =>
    cases bs with
    | nil => rfl
    | cons b2 bs =>
      cases bs with
      | nil => rfl
      | cons b3 bs => rfl

theorem decodeUTF8_ascii (l : List Byte) (h : ∀ b ∈ l, b < 128) : decodeUTF8 l = some l := by
  induction l with
  | nil => rfl
  | cons b l ih =>
    have hb : b < 128 := h b (List.mem_cons_self _ _)
    have hl := ih (fun c hc => h c (List.mem_cons_of_mem _ hc))
    rw [decodeUTF8_cons, if_pos hb, hl]
    rfl

theorem rdropWhile_of_no_terminator (l : List Byte) (h : ∀ b ∈ l, isTerminator b = false) :
    l.rdropWhile isTerminator = l := by
  rw [List.rdropWhile_eq_self_iff]
  intro hl
  rw [h _ (List.getLast_mem hl)]
  simp

theorem rdropWhile_append_lf (u : List Byte) :
    (u ++ [LF]).rdropWhile isTerminator = u.rdropWhile isTerminator :=
  List.rdropWhile_concat_pos _ _ _ (by decide)

theorem rdropWhile_append_cr (u : List Byte) :
    (u ++ [CR]).rdropWhile isTerminator = u.rdropWhile isTerminator :=
  List.rdropWhile_concat_pos _ _ _ (by decide)

theorem rdropWhile_append_crlf (u : List Byte) :
    (u ++ [CR, LF]).rdropWhile isTerminator = u.rdropWhile isTerminator := by
  have : u ++ [CR, LF] = (u ++ [CR]) ++ [LF] := by simp
  rw [this, rdropWhile_append_lf, rdropWhile_append_cr]

theorem referenceTokens_plain (l : List Byte) (hc : COMMA ∉ l) (hne : l ≠ []) :
    referenceTokens l = [l.rdropWhile isTerminator] := by
  simp [referenceTokens, nonEmptySpans_single l hc hne]

/-- Two comma-free endings that strip alike give the same tokens. -/
theorem referenceTokens_suffix (t u : List Byte) (ht : COMMA ∉ t) (hu : COMMA ∉ u)
    (htne : t ≠ []) (hune : u ≠ [])
    (hstrip : ∀ v : List Byte,
      (v ++ t).rdropWhile isTerminator = (v ++ u).rdropWhile isTerminator)
    (s : List Byte) :
    referenceTokens (s ++ t) = referenceTokens (s ++ u) := by
  generalize hn : s.length = n
  induction n using Nat.strong_induction_on generalizing s with
  | _ n ih =>
    by_cases hc : COMMA ∈ s
    · obtain ⟨a, b, rfl⟩ := List.append_of_mem hc
      have e1 : a ++ COMMA :: b ++ t = a ++ COMMA :: (b ++ t) := by simp
      have e2 : a ++ COMMA :: b ++ u = a ++ COMMA :: (b ++ u) := by simp
      rw [e1, e2, referenceTokens_append_cons, referenceTokens_append_cons]
      simp only [List.length_append, List.length_cons] at hn
      rw [ih _ (by omega) b rfl]
    · have h1 : COMMA ∉ s ++ t := by simp [hc, ht]
      have h2 : COMMA ∉ s ++ u := by simp [hc, hu]
      rw [referenceTokens_plain _ h1 (by simp [htne]),
        referenceTokens_plain _ h2 (by simp [hune]), hstrip]

theorem parseLine_crlf (s : List Byte) : parseLine (s ++ [CR, LF]) = parseLine (s ++ [LF]) := by
  by_cases h0 : 0 ∈ s
  · rw [parseLine_of_zero s _ h0, parseLine_of_zero s _ h0]
  · simp only [parseLine_eq, lineTokens_eq]
    rw [cString_append_of_no_zero _ _ h0, cString_append_of_no_zero _ _ h0]
    have e1 : cString [CR, LF] = [CR, LF] := rfl
    have e2 : cString [LF] = [LF] := rfl
    rw [e1, e2]
    exact congrArg decodeAll
      (referenceTokens_suffix [CR, LF] [LF] (by decide) (by decide) (by decide) (by decide)
        (fun v => by rw [rdropWhile_append_crlf, rdropWhile_append_lf]) s)

theorem parseLine_plain (l : List Byte) (hascii : ∀ b ∈ l, b < 128) (h0 : 0 ∉ l)
    (hc : COMMA ∉ l) (hne : l ≠ []) :
    parseLine l = .ok [l.rdropWhile isTerminator] := by
  rw [parseLine_eq, lineTokens_eq, cString_of_no_zero l h0, referenceTokens_plain l hc hne]
  have hdec : decodeUTF8 (l.rdropWhile isTerminator) = some (l.rdropWhile isTerminator) :=
    decodeUTF8_ascii _ (fun b hb => hascii b ((List.rdropWhile_prefix isTerminator l).subset hb))
  simp [decodeAll, hdec]

theorem lineContent_lf (x : List Byte) (hx : x.getLast? ≠ some CR) :
    lineContent (x ++ [LF]) = x := by
  have hr : (x ++ [LF]).reverse = 10 :: x.reverse := by simp
  rw [lineContent, hr]
  cases hxr : x.reverse with
  | nil =>
    have : x = [] := List.reverse_eq_nil_iff.mp hxr
    simp [this]
  | cons c r =>
    have hxe : x = r.reverse ++ [c] := by
      have := congrArg List.reverse hxr
      simpa using this
    have hc : c ≠ 13 := by
      intro h
      apply hx
      rw [hxe, h]
      simp
    split
    · rename_i heq
      simp only [List.cons.injEq, true_and] at heq
      exact absurd heq.1 hc
    · rename_i heq
      simp only [List.cons.injEq, true_and] at heq
      rw [hxe, ← heq]
      simp
    · rename_i h1 h2
      exact absurd rfl (h2 (c :: r))

/-- A line of `a` bytes followed by a terminator, as a row. -/
theorem parseLine_letters (x t : List Byte) (hx : ∀ b ∈ x, b = 97) (hne : x ≠ [])
    (ht : t = [] ∨ t = [LF] ∨ t = [CR] ∨ t = [CR, LF]) :
    parseLine (x ++ t) = .ok [x] := by
  have h97 : ∀ b ∈ x ++ t, b < 128 ∧ b ≠ 0 ∧ b ≠ COMMA := by
    intro b hb
    rcases List.mem_append.mp hb with h | h
    · rw [hx b h]; decide
    · have hb2 : b = LF ∨ b = CR := by
        rcases ht with h1 | h1 | h1 | h1 <;> subst h1 <;> simp at h
        · exact Or.inl h
        · exact Or.inr h
        · exact h.symm
      rcases hb2 with h2 | h2 <;> subst h2 <;> decide
  have hstrip : (x ++ t).rdropWhile isTerminator = x := by
    have hx2 : x.rdropWhile isTerminator = x :=
      rdropWhile_of_no_terminator x (fun b hb => by rw [hx b hb]; decide)
    rcases ht with h1 | h1 | h1 | h1 <;> subst h1
    · rw [List.append_nil, hx2]
    · rw [rdropWhile_append_lf, hx2]
    · rw [rdropWhile_append_cr, hx2]
    · rw [rdropWhile_append_crlf, hx2]
  rw [parseLine_plain (x ++ t) (fun b hb => (h97 b hb).1)
    (fun h => (h97 0 h).2.1 rfl) (fun h => (h97 COMMA h).2.2 rfl) (by simp [hne]), hstrip]

theorem letters_no_lf (x : List Byte) (hx : ∀ b ∈ x, b = 97) : LF ∉ x :=
  fun h => absurd (hx _ h) (by decide)

/-- A line of 4094 letters: with `\r\n` it is cut before the line feed, with
`\n` it is not. -/
theorem readStream_letters_4094 (x : List Byte) (hlen : x.length = 4094)
    (hx : ∀ b ∈ x, b = 97) :
    readStream (x ++ [CR, LF]) = .ok [[x], [[]]] ∧ readStream (x ++ [LF]) = .ok [[x]] := by
  have hne : x ≠ [] := by intro h; rw [h] at hlen; simp at hlen
  have hlf := letters_no_lf x hx
  constructor
  · have e : x ++ [CR, LF] = (x ++ [CR]) ++ [LF] := by simp
    have hlf2 : LF ∉ x ++ [CR] := by simp [hlf]
    rw [readStream_eq, e, rawLines_full (x ++ [CR]) [LF] (by simp [hlen]) hlf2]
    have e2 : rawLines [LF] = [[LF]] := rfl
    rw [e2, parseAll_cons, parseLine_letters x [CR] hx hne (by simp)]
    rfl
  · rw [readStream_eq, rawLines_lf x [] (by omega) hlf, rawLines_nil, parseAll_cons,
      parseLine_letters x [LF] hx hne (by simp)]
    rfl

/-- A line of 4095 letters and its line feed are two raw lines. -/
theorem readStream_letters_4095 (x : List Byte) (hlen : x.length = 4095)
    (hx : ∀ b ∈ x, b = 97) :
    readStream (x ++ [LF]) = .ok [[x], [[]]] := by
  have hne : x ≠ [] := by intro h; rw [h] at hlen; simp at hlen
  rw [readStream_eq, rawLines_full x [LF] hlen (letters_no_lf x hx)]
  have e2 : rawLines [LF] = [[LF]] := rfl
  have e3 := parseLine_letters x [] hx hne (by simp)
  rw [List.append_nil] at e3
  rw [e2, parseAll_cons, e3]
  rfl

/-! ## Lemmas: line feeds and carriage returns in fields -/

theorem lfOnlyLast_fgetsLoop (k : Nat) (s : List Byte) : LFOnlyLast (fgetsLoop k s).1 := by
  induction k generalizing s with
  | zero => intro p q h; simp [fgetsLoop] at h
  | succ k ih =>
    cases s with
    | nil => intro p q h; simp [fgetsLoop] at h
    | cons b s =>
      intro p q h
      by_cases hb : b = LF
      · simp only [fgetsLoop, hb, if_true] at h
        cases p with
        | nil => simp at h; exact h
        | cons c p => simp at h
      · simp only [fgetsLoop, hb, if_false] at h
        cases p with
        | nil => simp at h; exact absurd h.1 hb
        | cons c p =>
          simp only [List.cons_append, List.cons.injEq] at h
          exact ih s p q h.2

theorem rawLines_mem (s l : List Byte) (h : l ∈ rawLines s) : l ≠ [] ∧ LFOnlyLast l := by
  generalize hn : s.length = n
  induction n using Nat.strong_induction_on generalizing s with
  | _ n ih =>
    cases s with
    | nil => simp [rawLines_nil] at h
    | cons b s =>
      have hlt := fgetsLoop_rest_length 4095 (by decide) b s
      rw [rawLines_cons] at h
      rcases List.mem_cons.mp h with h1 | h1
      · rw [h1]
        exact ⟨fgetsLoop_ne_nil 4095 (by decide) b s, lfOnlyLast_fgetsLoop _ _⟩
      · simp only [List.length_cons] at hn
        exact ih _ (by omega) _ h1 rfl

theorem rawLines_flatten (s : List Byte) : (rawLines s).flatten = s := by
  generalize hn : s.length = n
  induction n using Nat.strong_induction_on generalizing s with
  | _ n ih =>
    cases s with
    | nil => rfl
    | cons b s =>
      have hlt := fgetsLoop_rest_length 4095 (by decide) b s
      simp only [List.length_cons] at hn
      rw [rawLines_cons, List.flatten_cons, ih _ (by omega) _ rfl, fgetsLoop_append]

theorem rawLines_subset (s l : List Byte) (h : l ∈ rawLines s) : ∀ b ∈ l, b ∈ s := by
  intro b hb
  have : b ∈ (rawLines s).flatten := List.mem_flatten.mpr ⟨l, h, hb⟩
  rwa [rawLines_flatten] at this

theorem splitOn_contiguous (s t : List Byte) (h : t ∈ s.splitOn COMMA) : t <:+: s := by
  generalize hn : s.length = n
  induction n using Nat.strong_induction_on generalizing s with
  | _ n ih =>
    by_cases hc : COMMA ∈ s
    · obtain ⟨a, b, rfl⟩ := List.append_of_mem hc
      rw [splitOn_append_cons] at h
      simp only [List.length_append, List.length_cons] at hn
      rcases List.mem_append.mp h with h1 | h1
      · exact (ih _ (by omega) a h1 rfl).trans (List.prefix_append _ _).isInfix
      · exact (ih _ (by omega) b h1 rfl).trans
          ((List.suffix_cons _ _).trans (List.suffix_append _ _)).isInfix
    · rw [splitOn_single s hc, List.mem_singleton] at h
      rw [h]

theorem lfOnlyLast_contiguous (s t : List Byte) (hs : LFOnlyLast s) (ht : t <:+: s) :
    LFOnlyLast t := by
  obtain ⟨a, b, rfl⟩ := ht
  intro p q h
  have := hs (a ++ p) (q ++ b) (by rw [h]; simp)
  exact (List.append_eq_nil.mp this).1

theorem rdropWhile_last (t : List Byte) (c : Byte)
    (h : (t.rdropWhile isTerminator).getLast? = some c) : isTerminator c = false := by
  have hne : t.rdropWhile isTerminator ≠ [] := by
    intro h0; rw [h0] at h; simp at h
  have h1 := List.rdropWhile_last_not isTerminator t hne
  rw [List.getLast?_eq_getLast _ hne, Option.some.injEq] at h
  rw [h] at h1
  simpa using h1

theorem rdropWhile_no_lf (t : List Byte) (ht : LFOnlyLast t) :
    LF ∉ t.rdropWhile isTerminator := by
  intro hmem
  obtain ⟨w, hw⟩ := List.rdropWhile_prefix isTerminator t
  obtain ⟨p, q, hpq⟩ := List.append_of_mem hmem
  have hq := ht p (q ++ w) (by rw [← hw, hpq]; simp)
  have hq2 : q = [] := (List.append_eq_nil.mp hq).1
  rw [hq2] at hpq
  have hl : (t.rdropWhile isTerminator).getLast? = some LF := by rw [hpq]; simp
  have := rdropWhile_last t LF hl
  simp [isTerminator] at this

theorem lowPreserved_step (pre rest : List Byte) (cp : Nat) (r : Field)
    (hih : LowPreserved rest r) (hcp : cp < 128 → pre = [cp]) :
    LowPreserved (pre ++ rest) (cp :: r) := by
  obtain ⟨h1, h2, h3⟩ := hih
  refine ⟨?_, ?_, by simp⟩
  · intro c hc hlt
    rcases List.mem_cons.mp hc with h | h
    · rw [h]; rw [hcp (h ▸ hlt)]; simp
    · exact List.mem_append_right _ (h1 c h hlt)
  · intro c hc hlt
    by_cases hr : r = []
    · rw [hr] at hc
      simp only [List.getLast?_singleton, Option.some.injEq] at hc
      rw [h3 hr, List.append_nil, hcp (hc ▸ hlt), hc]
      rfl
    · obtain ⟨d, r2, hd⟩ := List.exists_cons_of_ne_nil hr
      rw [hd, List.getLast?_cons_cons, ← hd] at hc
      have hrest := h2 c hc hlt
      have hne : rest ≠ [] := by intro h0; rw [h0] at hrest; simp at hrest
      rw [List.getLast?_append_of_ne_nil _ hne]
      exact hrest

theorem decodeUTF8_lowPreserved (bs : List Byte) (cps : Field)
    (h : decodeUTF8 bs = some cps) : LowPreserved bs cps := by
  generalize hn : bs.length = n
  induction n using Nat.strong_induction_on generalizing bs cps with
  | _ n ih =>
    cases bs with
    | nil =>
      have e : decodeUTF8 [] = some [] := rfl
      rw [e, Option.some.injEq] at h
      subst h
      exact ⟨by simp, by simp, by simp⟩
    | cons b0 bs =>
      simp only [List.length_cons] at hn
      rw [decodeUTF8_cons] at h
      split_ifs at h with c1 c2 c3 c4
      · obtain ⟨r, hr, rfl⟩ := Option.map_eq_some'.mp h
        exact lowPreserved_step [b0] bs b0 r (ih _ (by omega) bs r hr rfl)
          (fun _ => rfl)
      · cases bs with
        | nil => simp at h
        | cons b1 bs =>
          simp only at h
          split_ifs at h with d1
          obtain ⟨r, hr, rfl⟩ := Option.map_eq_some'.mp h
          simp only [List.length_cons] at hn
          exact lowPreserved_step [b0, b1] bs _ r (ih _ (by omega) bs r hr rfl)
            (fun hlt => by
              have e1 : (194 : Nat) ≤ b0 := c2.1
              simp only [cp2] at hlt
              omega)
      · cases bs with
        | nil => simp at h
        | cons b1 bs =>
          cases bs with
          | nil => simp at h
          | cons b2 bs =>
            simp only at h
            split_ifs at h with d1
            obtain ⟨r, hr, rfl⟩ := Option.map_eq_some'.mp h
            simp only [List.length_cons] at hn
            exact lowPreserved_step [b0, b1, b2] bs _ r (ih _ (by omega) bs r hr rfl)
              (fun hlt => by have := d1.2.2.1; omega)
      · cases bs with
        | nil => simp at h
        | cons b1 bs =>
          cases bs with
          | nil => simp at h
          | cons b2 bs =>
            cases bs with
            | nil => simp at h
            | cons b3 bs =>
              simp only at h
              split_ifs at h with d1
              obtain ⟨r, hr, rfl⟩ := Option.map_eq_some'.mp h
              simp only [List.length_cons] at hn
              exact lowPreserved_step [b0, b1, b2, b3] bs _ r (ih _ (by omega) bs r hr rfl)
                (fun hlt => by have := d1.2.2.2.1; omega)

theorem decodeAll_ok_mem (ts : List (List Byte)) (row : Row) (h : decodeAll ts = .ok row)
    (f : Field) (hf : f ∈ row) : ∃ t ∈ ts, decodeUTF8 t = some f := by
  induction ts generalizing row with
  | nil =>
    simp only [decodeAll, Except.ok.injEq] at h
    subst h
    simp at hf
  | cons t ts ih =>
    rw [decodeAll_cons] at h
    cases hd : decodeUTF8 t with
    | none => rw [hd] at h; simp at h
    | some item =>
      rw [hd] at h
      cases hr : decodeAll ts with
      | error e => rw [hr] at h; simp at h
      | ok r =>
        rw [hr] at h
        simp only [Except.ok.injEq] at h
        subst h
        rcases List.mem_cons.mp hf with h1 | h1
        · exact ⟨t, List.mem_cons_self _ _, by rw [hd, h1]⟩
        · obtain ⟨u, hu, hdu⟩ := ih r hr h1
          exact ⟨u, List.mem_cons_of_mem _ hu, hdu⟩

theorem parseAll_ok_mem (ls : List (List Byte)) (doc : Document) (h : parseAll ls = .ok doc)
    (row : Row) (hrow : row ∈ doc) : ∃ l ∈ ls, parseLine l = .ok row := by
  induction ls generalizing doc with
  | nil =>
    simp only [parseAll, Except.ok.injEq] at h
    subst h
    simp at hrow
  | cons l ls ih =>
    rw [parseAll_cons] at h
    cases hd : parseLine l with
    | error e => rw [hd] at h; simp at h
    | ok r0 =>
      rw [hd] at h
      cases hr : parseAll ls with
      | error e => rw [hr] at h; simp at h
      | ok d =>
        rw [hr] at h
        simp only [Except.ok.injEq] at h
        subst h
        rcases List.mem_cons.mp hrow with h1 | h1
        · exact ⟨l, List.mem_cons_self _ _, by rw [hd, h1]⟩
        · obtain ⟨u, hu, hdu⟩ := ih d hr h1
          exact ⟨u, List.mem_cons_of_mem _ hu, hdu⟩

/-- A field of the row of a raw line holds no line feed and does not end with
a carriage return. -/
theorem parseLine_field (l : List Byte) (hl : LFOnlyLast l) (row : Row)
    (h : parseLine l = .ok row) (f : Field) (hf : f ∈ row) :
    LF ∉ f ∧ f.getLast? ≠ some CR := by
  rw [parseLine_eq, lineTokens_eq] at h
  obtain ⟨t, ht, hdec⟩ := decodeAll_ok_mem _ row h f hf
  simp only [referenceTokens, List.mem_map] at ht
  obtain ⟨u, hu, rfl⟩ := ht
  have hu2 : u ∈ (cString l).splitOn COMMA := (List.mem_filter.mp hu).1
  have hinf : u <:+: l :=
    (splitOn_contiguous _ u hu2).trans (List.takeWhile_prefix _).isInfix
  have hlow := decodeUTF8_lowPreserved _ f hdec
  constructor
  · intro hmem
    exact rdropWhile_no_lf u (lfOnlyLast_contiguous l u hl hinf) (hlow.1 LF hmem (by decide))
  · intro hlast
    have := rdropWhile_last u CR (hlow.2.1 CR hlast (by decide))
    simp [isTerminator] at this

/-! ## Lemmas: lines without empty spans -/

theorem decodeAll_ascii (ts : List (List Byte)) (h : ∀ t ∈ ts, ∀ b ∈ t, b < 128) :
    decodeAll ts = .ok ts := by
  induction ts with
  | nil => rfl
  | cons t ts ih =>
    rw [decodeAll_cons, decodeUTF8_ascii t (h t (List.mem_cons_self _ _)),
      ih (fun u hu => h u (List.mem_cons_of_mem _ hu))]

theorem parseAll_of_forall (ls : List (List Byte)) (f : List Byte → Row)
    (h : ∀ l ∈ ls, parseLine l = .ok (f l)) : parseAll ls = .ok (ls.map f) := by
  induction ls with
  | nil => rfl
  | cons l ls ih =>
    rw [parseAll_cons, h l (List.mem_cons_self _ _),
      ih (fun u hu => h u (List.mem_cons_of_mem _ hu))]
    rfl

theorem rdropWhile_of_last (t : List Byte)
    (h : ∀ x, t.getLast? = some x → isTerminator x = false) :
    t.rdropWhile isTerminator = t := by
  rw [List.rdropWhile_eq_self_iff]
  intro hl
  rw [h _ (List.getLast?_eq_getLast t hl)]
  simp

theorem referenceTokens_of_spans (c : List Byte) (hH : [] ∉ c.splitOn COMMA)
    (hS : ∀ t ∈ c.splitOn COMMA, ∀ x, t.getLast? = some x → isTerminator x = false) :
    referenceTokens c = c.splitOn COMMA := by
  have h1 : nonEmptySpans c = c.splitOn COMMA := by
    rw [nonEmptySpans, List.filter_eq_self]
    intro t ht
    simp only [decide_eq_true_eq]
    intro h0
    exact hH (h0 ▸ ht)
  rw [referenceTokens, h1]
  conv_rhs => rw [← List.map_id (c.splitOn COMMA)]
  apply List.map_congr_left
  intro t ht
  exact rdropWhile_of_last t (hS t ht)

theorem referenceTokens_terminated (term : List Byte) (hterm : term = [LF] ∨ term = [CR, LF])
    (c : List Byte) (hH : [] ∉ c.splitOn COMMA ∨ c = [])
    (hS : ∀ t ∈ c.splitOn COMMA, ∀ x, t.getLast? = some x → isTerminator x = false) :
    referenceTokens (c ++ term) = c.splitOn COMMA := by
  have hstrip : ∀ v : List Byte,
      (v ++ term).rdropWhile isTerminator = v.rdropWhile isTerminator := by
    intro v
    rcases hterm with h | h <;> subst h
    · exact rdropWhile_append_lf v
    · exact rdropWhile_append_crlf v
  have htc : COMMA ∉ term := by rcases hterm with h | h <;> subst h <;> decide
  have htne : term ≠ [] := by rcases hterm with h | h <;> subst h <;> decide
  generalize hn : c.length = n
  induction n using Nat.strong_induction_on generalizing c with
  | _ n ih =>
    by_cases hcomma : COMMA ∈ c
    · obtain ⟨a, b, rfl⟩ := List.append_of_mem hcomma
      have hH2 : [] ∉ (a ++ COMMA :: b).splitOn COMMA := by
        rcases hH with h | h
        · exact h
        · simp at h
      rw [splitOn_append_cons] at hH2 hS ⊢
      have e1 : a ++ COMMA :: b ++ term = a ++ COMMA :: (b ++ term) := by simp
      simp only [List.length_append, List.length_cons] at hn
      rw [e1, referenceTokens_append_cons,
        referenceTokens_of_spans a (fun h => hH2 (List.mem_append_left _ h))
          (fun t ht => hS t (List.mem_append_left _ ht)),
        ih _ (by omega) b (Or.inl (fun h => hH2 (List.mem_append_right _ h)))
          (fun t ht => hS t (List.mem_append_right _ ht)) rfl]
    · have h1 : COMMA ∉ c ++ term := by simp [hcomma, htc]
      have hc : c.rdropWhile isTerminator = c :=
        rdropWhile_of_last c (hS c (by rw [splitOn_single c hcomma]; simp))
      rw [referenceTokens_plain _ h1 (by simp [htne]), hstrip, hc, splitOn_single c hcomma]

/-- A span that ends with a carriage return stands before a delimiter or at
the end of the line. -/
theorem span_last_cr (c t : List Byte) (ht : t ∈ c.splitOn COMMA)
    (hlast : t.getLast? = some CR) :
    [CR, COMMA] <:+: c ∨ c.getLast? = some CR := by
  generalize hn : c.length = n
  induction n using Nat.strong_induction_on generalizing c with
  | _ n ih =>
    by_cases hcomma : COMMA ∈ c
    · obtain ⟨a, b, rfl⟩ := List.append_of_mem hcomma
      rw [splitOn_append_cons] at ht
      simp only [List.length_append, List.length_cons] at hn
      rcases List.mem_append.mp ht with h1 | h1
      · left
        rcases ih _ (by omega) a h1 rfl with h2 | h2
        · exact h2.trans (List.prefix_append _ _).isInfix
        · obtain ⟨a2, rfl⟩ := List.getLast?_eq_some_iff.mp h2
          exact ⟨a2, b, by simp⟩
      · rcases ih _ (by omega) b h1 rfl with h2 | h2
        · left
          exact h2.trans ((List.suffix_cons _ _).trans (List.suffix_append _ _)).isInfix
        · right
          have hb : b ≠ [] := by intro h0; rw [h0] at h2; simp at h2
          obtain ⟨d, b2, rfl⟩ := List.exists_cons_of_ne_nil hb
          rw [List.getLast?_append_of_ne_nil _ (by simp), List.getLast?_cons_cons]
          exact h2
    · rw [splitOn_single c hcomma, List.mem_singleton] at ht
      right
      rw [← ht]
      exact hlast

/-- A non-empty line without a delimiter at either end and without two
consecutive delimiters has no empty span. -/
theorem no_empty_span (c : List Byte) (hne : c ≠ []) (hhead : c.head? ≠ some COMMA)
    (hlast : c.getLast? ≠ some COMMA) (hinf : ¬ [COMMA, COMMA] <:+: c) :
    [] ∉ c.splitOn COMMA := by
  generalize hn : c.length = n
  induction n using Nat.strong_induction_on generalizing c with
  | _ n ih =>
    by_cases hcomma : COMMA ∈ c
    · obtain ⟨a, b, rfl⟩ := List.append_of_mem hcomma
      have ha : a ≠ [] := by
        intro h; apply hhead; rw [h]; rfl
      have hb : b ≠ [] := by
        intro h; apply hlast; rw [h]; simp
      have ha1 : a.head? ≠ some COMMA := by
        intro h; apply hhead
        rw [List.head?_append_of_ne_nil _ ha]; exact h
      have ha2 : a.getLast? ≠ some COMMA := by
        intro h; apply hinf
        obtain ⟨a2, rfl⟩ := List.getLast?_eq_some_iff.mp h
        exact ⟨a2, b, by simp⟩
      have ha3 : ¬ [COMMA, COMMA] <:+: a :=
        fun h => hinf (h.trans (List.prefix_append _ _).isInfix)
      have hb1 : b.head? ≠ some COMMA := by
        intro h; apply hinf
        obtain ⟨d, b2, rfl⟩ := List.exists_cons_of_ne_nil hb
        simp only [List.head?_cons, Option.some.injEq] at h
        subst h
        exact ⟨a, b2, by simp⟩
      have hb2 : b.getLast? ≠ some COMMA := by
        intro h; apply hlast
        obtain ⟨d, b2, rfl⟩ := List.exists_cons_of_ne_nil hb
        rw [List.getLast?_append_of_ne_nil _ (by simp), List.getLast?_cons_cons]
        exact h
      have hb3 : ¬ [COMMA, COMMA] <:+: b :=
        fun h => hinf (h.trans
          ((List.suffix_cons _ _).trans (List.suffix_append _ _)).isInfix)
      simp only [List.length_append, List.length_cons] at hn
      rw [splitOn_append_cons]
      intro h
      rcases List.mem_append.mp h with h1 | h1
      · exact ih _ (by omega) a ha ha1 ha2 ha3 rfl h1
      · exact ih _ (by omega) b hb hb1 hb2 hb3 rfl h1
    · rw [splitOn_single c hcomma, List.mem_singleton]
      exact fun h => hne h.symm

theorem lineContent_crlf (c : List Byte) : lineContent (c ++ [CR, LF]) = c := by
  simp [lineContent]

theorem lineContent_other (l : List Byte) (h : l.getLast? ≠ some LF) : lineContent l = l := by
  rw [lineContent]
  split
  · rename_i r heq
    exfalso; apply h
    have := congrArg List.reverse heq
    rw [List.reverse_reverse] at this
    rw [this]; simp
  · rename_i r _ heq
    exfalso; apply h
    have := congrArg List.reverse heq
    rw [List.reverse_reverse] at this
    rw [this]; simp
  · rfl

theorem lineContent_cases (l : List Byte) :
    (∃ c, l = c ++ [CR, LF] ∧ lineContent l = c)
      ∨ (∃ x, l = x ++ [LF] ∧ lineContent l = x)
      ∨ (l.getLast? ≠ some LF ∧ lineContent l = l) := by
  by_cases h1 : l.getLast? = some LF
  · obtain ⟨x, rfl⟩ := List.getLast?_eq_some_iff.mp h1
    by_cases h2 : x.getLast? = some CR
    · obtain ⟨c, rfl⟩ := List.getLast?_eq_some_iff.mp h2
      left
      exact ⟨c, by simp, by rw [List.append_assoc]; exact lineContent_crlf c⟩
    · right; left
      exact ⟨x, rfl, lineContent_lf x h2⟩
  · right; right
    exact ⟨h1, lineContent_other l h1⟩

/-- The row of a raw line of plain text without empty spans and without a
span that ends with a carriage return: the textbook split of its content. -/
theorem parseLine_textbook (l : List Byte) (hne : l ≠ []) (hl : LFOnlyLast l)
    (hascii : ∀ b ∈ l, b < 128) (h0 : 0 ∉ l)
    (hcr : (lineContent l).getLast? ≠ some CR ∧ ¬ [CR, COMMA] <:+: lineContent l)
    (hdelim : (lineContent l).head? ≠ some COMMA ∧ (lineContent l).getLast? ≠ some COMMA
      ∧ ¬ [COMMA, COMMA] <:+: lineContent l) :
    parseLine l = .ok ((lineContent l).splitOn COMMA) := by
  have hspans : ∀ c : List Byte, (∀ b ∈ c, b ∈ l) →
      decodeAll (c.splitOn COMMA) = .ok (c.splitOn COMMA) := by
    intro c hc
    exact decodeAll_ascii _
      (fun t ht b hb => hascii b (hc b ((splitOn_contiguous c t ht).subset hb)))
  have hS : ∀ c : List Byte, c = lineContent l → LF ∉ c →
      ∀ t ∈ c.splitOn COMMA, ∀ x, t.getLast? = some x → isTerminator x = false := by
    intro c hc hlf t ht x hx
    cases hterm : isTerminator x with
    | false => rfl
    | true =>
      exfalso
      rcases (isTerminator_iff x).mp hterm with h | h
      · rw [h] at hx
        exact hlf ((splitOn_contiguous c t ht).subset (List.mem_of_getLast?_eq_some hx))
      · rw [h] at hx
        rw [← hc] at hcr
        rcases span_last_cr c t ht hx with h2 | h2
        · exact hcr.2 h2
        · exact hcr.1 h2
  have hH : ∀ c : List Byte, c = lineContent l → [] ∉ c.splitOn COMMA ∨ c = [] := by
    intro c hc
    by_cases hc0 : c = []
    · exact Or.inr hc0
    · left
      rw [← hc] at hdelim
      exact no_empty_span c hc0 hdelim.1 hdelim.2.1 hdelim.2.2
  rw [parseLine_eq, lineTokens_eq, cString_of_no_zero l h0]
  rcases lineContent_cases l with ⟨c, hlc, hcont⟩ | ⟨x, hlx, hcont⟩ | ⟨hlast, hcont⟩
  · have hlf : LF ∉ c := by
      intro hm
      obtain ⟨p, q, hpq⟩ := List.append_of_mem hm
      have := hl p (q ++ [CR, LF]) (by rw [hlc, hpq]; simp)
      simp at this
    have hsub : ∀ b ∈ c, b ∈ l := fun b hb => by rw [hlc]; exact List.mem_append_left _ hb
    rw [hcont]
    conv_lhs => rw [hlc]
    rw [referenceTokens_terminated _ (Or.inr rfl) c (hH c hcont.symm) (hS c hcont.symm hlf)]
    exact hspans c hsub
  · have hlf : LF ∉ x := by
      intro hm
      obtain ⟨p, q, hpq⟩ := List.append_of_mem hm
      have := hl p (q ++ [LF]) (by rw [hlx, hpq]; simp)
      simp at this
    have hsub : ∀ b ∈ x, b ∈ l := fun b hb => by rw [hlx]; exact List.mem_append_left _ hb
    rw [hcont]
    conv_lhs => rw [hlx]
    rw [referenceTokens_terminated _ (Or.inl rfl) x (hH x hcont.symm) (hS x hcont.symm hlf)]
    exact hspans x hsub
  · have hlf : LF ∉ l := by
      intro hm
      obtain ⟨p, q, hpq⟩ := List.append_of_mem hm
      have hq := hl p q hpq
      apply hlast
      rw [hpq, hq]; simp
    have hH2 := hH l hcont.symm
    rw [hcont]
    rw [referenceTokens_of_spans l
      (by rcases hH2 with h | h
          · exact h
          · exact absurd h hne) (hS l hcont.symm hlf)]
    exact hspans l (fun b hb => hb)

theorem letters_plainDelimited (x : List Byte) (hx : ∀ b ∈ x, b = 97)
    (hp : physLines x = [x]) (hc : lineContent x = x) : PlainDelimited x := by
  refine ⟨fun b hb => by rw [hx b hb]; decide, ?_⟩
  intro l hl
  rw [hp, List.mem_singleton] at hl
  rw [hl, hc]
  have hno : COMMA ∉ x := fun h => absurd (hx _ h) (by decide)
  refine ⟨?_, ?_, ?_⟩
  · intro h
    exact hno (List.mem_of_mem_head? h)
  · intro h
    exact hno (List.mem_of_getLast?_eq_some h)
  · intro h
    exact hno (h.subset (List.mem_cons_self _ _))

/-- A line of 4096 letters `a` without terminator: two raw lines, one
physical line. -/
theorem readStream_letters_4096 (x : List Byte) (hlen : x.length = 4095)
    (hx : ∀ b ∈ x, b = 97) :
    PlainDelimited (x ++ [97])
      ∧ readStream (x ++ [97]) = .ok [[x], [[97]]]
      ∧ textbookSplit (x ++ [97]) = [[x ++ [97]]] := by
  have hne : x ≠ [] := by intro h; rw [h] at hlen; simp at hlen
  have hx2 : ∀ b ∈ x ++ [97], b = 97 := by
    intro b hb
    rcases List.mem_append.mp hb with h | h
    · exact hx b h
    · exact List.mem_singleton.mp h
  have hp : physLines (x ++ [97]) = [x ++ [97]] :=
    physLines_eof _ (by simp) (letters_no_lf _ hx2)
  have hc : lineContent (x ++ [97]) = x ++ [97] :=
    lineContent_other _ (by rw [List.getLast?_concat]; decide)
  refine ⟨letters_plainDelimited _ hx2 hp hc, ?_, ?_⟩
  · rw [readStream_eq, rawLines_full x [97] hlen (letters_no_lf x hx)]
    have e2 : rawLines [97] = [[97]] := rfl
    have e3 := parseLine_letters x [] hx hne (by simp)
    rw [List.append_nil] at e3
    rw [e2, parseAll_cons, e3]
    rfl
  · rw [textbookSplit, hp, List.map_cons, List.map_nil, hc,
      splitOn_single _ (fun h => absurd (hx2 _ h) (by decide))]

/-! ## Lemmas: counting rows -/

theorem physLines_length (s : List Byte) :
    (physLines s).length
      = s.count LF + (if s ≠ [] ∧ s.getLast? ≠ some LF then 1 else 0) := by
  generalize hn : s.length = n
  induction n using Nat.strong_induction_on generalizing s with
  | _ n ih =>
    by_cases hlf : LF ∈ s
    · obtain ⟨x, r, rfl, hx⟩ := exists_first_lf s hlf
      simp only [List.length_append, List.length_cons] at hn
      have hc : (x ++ LF :: r).count LF = r.count LF + 1 := by
        rw [List.count_append, List.count_eq_zero_of_not_mem hx, List.count_cons_self,
          Nat.zero_add]
      rw [physLines_lf x r hx, List.length_cons, ih _ (by omega) r rfl, hc]
      by_cases hr : r = []
      · subst hr
        simp
      · have hlast : (x ++ LF :: r).getLast? = r.getLast? := by
          obtain ⟨d, r2, rfl⟩ := List.exists_cons_of_ne_nil hr
          rw [List.getLast?_append_of_ne_nil _ (by simp), List.getLast?_cons_cons]
        have hne : x ++ LF :: r ≠ [] := by simp
        rw [hlast]
        simp only [hr, hne, ne_eq, not_false_eq_true, true_and]
        omega
    · by_cases hne : s = []
      · subst hne; rfl
      · have hlast : s.getLast? ≠ some LF :=
          fun h => hlf (List.mem_of_getLast?_eq_some h)
        rw [physLines_eof s hne hlf, List.count_eq_zero_of_not_mem hlf]
        simp [hne, hlast]

theorem parseAll_ok_length (ls : List (List Byte)) (doc : Document)
    (h : parseAll ls = .ok doc) : doc.length = ls.length :=
  (List.Forall₂.length_eq (parseAll_ok_forall₂ ls doc h)).symm

theorem parseLine_zero_cons (r : List Byte) : parseLine (0 :: r) = .ok [] := by
  have hc : cString (0 :: r) = [] := by simp [cString, List.takeWhile_cons]
  rw [parseLine, hc]
  rfl

theorem parseLine_cut (a r : List Byte) (h0 : 0 ∉ a) : parseLine (a ++ 0 :: r) = parseLine a := by
  have h1 : cString (a ++ 0 :: r) = a := by
    rw [cString_append_of_no_zero a _ h0]
    simp [cString, List.takeWhile_cons]
  rw [parseLine, h1, parseLine, cString_of_no_zero a h0]

theorem linesReadLoop_succ_cons (fuel : Nat) (b : Byte) (s : List Byte) :
    linesReadLoop (fuel + 1) (b :: s)
      = match parseLine (fgetsLoop 4095 (b :: s)).1 with
        | .error _ => 1
        | .ok _ => 1 + linesReadLoop fuel (fgetsLoop 4095 (b :: s)).2 := rfl

/-- In a call that returns a document, the lines read are the rows. -/
theorem linesReadLoop_ok (fuel : Nat) (s : List Byte) (doc : Document)
    (h : parseAll (rawLinesLoop fuel s) = .ok doc) : linesReadLoop fuel s = doc.length := by
  induction fuel generalizing s doc with
  | zero =>
    simp only [rawLinesLoop, parseAll, Except.ok.injEq] at h
    subst h
    rfl
  | succ fuel ih =>
    cases s with
    | nil =>
      simp only [rawLinesLoop, fgets_nil, parseAll, Except.ok.injEq] at h
      subst h
      rfl
    | cons b s =>
      rw [rawLinesLoop_succ_cons, parseAll_cons] at h
      rw [linesReadLoop_succ_cons]
      cases hl : parseLine (fgetsLoop 4095 (b :: s)).1 with
      | error e => rw [hl] at h; simp at h
      | ok row =>
        rw [hl] at h
        cases hr : parseAll (rawLinesLoop fuel (fgetsLoop 4095 (b :: s)).2) with
        | error e => rw [hr] at h; simp at h
        | ok d =>
          rw [hr] at h
          simp only [Except.ok.injEq] at h
          subst h
          rw [ih _ d hr, List.length_cons, Nat.add_comm]

/-! ## Lemmas: the raw lines -/

theorem fgetsLoop_length_le (k : Nat) (s : List Byte) : (fgetsLoop k s).1.length ≤ k := by
  induction k generalizing s with
  | zero => simp [fgetsLoop]
  | succ k ih =>
    cases s with
    | nil => simp [fgetsLoop]
    | cons b s =>
      by_cases hb : b = LF
      · simp [fgetsLoop, hb]
      · have := ih s
        simp only [fgetsLoop, hb, if_false, List.length_cons]
        omega

theorem fgetsLoop_cut (k : Nat) (s : List Byte) (h : (fgetsLoop k s).2 ≠ []) :
    (fgetsLoop k s).1.getLast? = some LF ∨ (fgetsLoop k s).1.length = k := by
  induction k generalizing s with
  | zero => right; simp [fgetsLoop]
  | succ k ih =>
    cases s with
    | nil => simp [fgetsLoop] at h
    | cons b s =>
      by_cases hb : b = LF
      · left; simp [fgetsLoop, hb]
      · simp only [fgetsLoop, hb, if_false] at h ⊢
        rcases ih s h with h1 | h1
        · left
          have hne : (fgetsLoop k s).1 ≠ [] := by
            intro h0; rw [h0] at h1; simp at h1
          obtain ⟨d, r2, hd⟩ := List.exists_cons_of_ne_nil hne
          rw [hd, List.getLast?_cons_cons, ← hd]
          exact h1
        · right
          simp only [List.length_cons, h1]

theorem lfOnlyLast_dropLast (l : List Byte) (h : LFOnlyLast l) : LF ∉ l.dropLast := by
  intro hm
  by_cases hne : l = []
  · rw [hne] at hm; simp at hm
  · obtain ⟨p, q, hpq⟩ := List.append_of_mem hm
    have hl : l = p ++ LF :: (q ++ [l.getLast hne]) := by
      conv_lhs => rw [← List.dropLast_append_getLast hne, hpq]
      simp
    have := h p _ hl
    simp at this

theorem rawLines_eq_nil (s : List Byte) (h : rawLines s = []) : s = [] := by
  cases s with
  | nil => rfl
  | cons b s => rw [rawLines_cons] at h; simp at h

theorem rawLines_length_le (s l : List Byte) (h : l ∈ rawLines s) : l.length ≤ 4095 := by
  generalize hn : s.length = n
  induction n using Nat.strong_induction_on generalizing s with
  | _ n ih =>
    cases s with
    | nil => simp [rawLines_nil] at h
    | cons b s =>
      have hlt := fgetsLoop_rest_length 4095 (by decide) b s
      rw [rawLines_cons] at h
      rcases List.mem_cons.mp h with h1 | h1
      · rw [h1]
        exact fgetsLoop_length_le _ _
      · simp only [List.length_cons] at hn
        exact ih _ (by omega) _ h1 rfl

theorem rawLines_dropLast (s l : List Byte) (h : l ∈ (rawLines s).dropLast) :
    l.getLast? = some LF ∨ l.length = 4095 := by
  generalize hn : s.length = n
  induction n using Nat.strong_induction_on generalizing s with
  | _ n ih =>
    cases s with
    | nil => simp [rawLines_nil] at h
    | cons b s =>
      have hlt := fgetsLoop_rest_length 4095 (by decide) b s
      rw [rawLines_cons] at h
      by_cases hr : rawLines (fgetsLoop 4095 (b :: s)).2 = []
      · rw [hr] at h; simp at h
      · obtain ⟨d, r2, hd⟩ := List.exists_cons_of_ne_nil hr
        rw [hd, List.dropLast_cons₂, ← hd] at h
        rcases List.mem_cons.mp h with h1 | h1
        · rw [h1]
          apply fgetsLoop_cut
          intro h0
          rw [h0] at hr
          exact hr rfl
        · simp only [List.length_cons] at hn
          exact ih _ (by omega) _ h1 rfl

theorem rawLines_count_le (s : List Byte) : (rawLines s).length ≤ s.length := by
  generalize hn : s.length = n
  induction n using Nat.strong_induction_on generalizing s with
  | _ n ih =>
    cases s with
    | nil => simp [rawLines_nil]
    | cons b s =>
      have hlt := fgetsLoop_rest_length 4095 (by decide) b s
      simp only [List.length_cons] at hn
      have := ih _ (by omega) (fgetsLoop 4095 (b :: s)).2 rfl
      rw [rawLines_cons, List.length_cons]
      omega

/-! ## Lemmas: a character cut by `fgets` -/

theorem decodeUTF8_ascii_append (x y : List Byte) (h : ∀ b ∈ x, b < 128) :
    decodeUTF8 (x ++ y) = (decodeUTF8 y).map (fun r => x ++ r) := by
  induction x with
  | nil => rw [List.nil_append]; cases decodeUTF8 y <;> rfl
  | cons b x ih =>
    have hb : b < 128 := h b (List.mem_cons_self _ _)
    rw [List.cons_append, decodeUTF8_cons, if_pos hb,
      ih (fun c hc => h c (List.mem_cons_of_mem _ hc))]
    cases decodeUTF8 y <;> rfl

/-- The content of 4094 letters `a` followed by the two bytes of `é`. -/
theorem readStream_letters_straddle (x : List Byte) (hlen : x.length = 4094)
    (hx : ∀ b ∈ x, b = 97) :
    decodeUTF8 (x ++ [0xC3, 0xA9]) = some (x ++ [0xE9])
      ∧ rawLines (x ++ [0xC3, 0xA9]) = [x ++ [0xC3], [0xA9]]
      ∧ readStream (x ++ [0xC3, 0xA9]) = .error .unicodeError := by
  have hascii : ∀ b ∈ x, b < 128 := fun b hb => by rw [hx b hb]; decide
  have hprop : ∀ b ∈ x ++ [0xC3], b ≠ LF ∧ b ≠ 0 ∧ b ≠ COMMA := by
    intro b hb
    rcases List.mem_append.mp hb with h | h
    · rw [hx b h]; decide
    · rw [List.mem_singleton.mp h]; decide
  have hraw : rawLines (x ++ [0xC3, 0xA9]) = [x ++ [0xC3], [0xA9]] := by
    have e : x ++ [0xC3, 0xA9] = (x ++ [0xC3]) ++ [0xA9] := by simp
    rw [e, rawLines_full (x ++ [0xC3]) [0xA9] (by simp [hlen])
      (fun h => (hprop LF h).1 rfl)]
    rfl
  refine ⟨?_, hraw, ?_⟩
  · rw [decodeUTF8_ascii_append x _ hascii]
    rfl
  · rw [readStream_eq, hraw]
    apply parseAll_of_bad
    refine ⟨x ++ [0xC3], List.mem_cons_self _ _, x ++ [0xC3], ?_, ?_⟩
    · have hstrip : (x ++ [0xC3]).rdropWhile isTerminator = x ++ [0xC3] :=
        List.rdropWhile_concat_neg _ _ _ (by decide)
      rw [lineTokens_eq, cString_of_no_zero _ (fun h => (hprop 0 h).2.1 rfl),
        referenceTokens_plain _ (fun h => (hprop COMMA h).2.2 rfl) (by simp), hstrip]
      exact List.mem_singleton_self _
    · rw [decodeUTF8_ascii_append x _ hascii]
      rfl

/-! ## Lemmas: cutting valid UTF-8 at an ASCII byte -/

theorem isCont_ascii (b : Byte) (hb : b < 128) : isCont b = false := by
  have hb2 : (128 : Nat) > b := hb
  simp only [isCont, decide_eq_false_iff_not]
  intro h
  have h1 : (128 : Nat) ≤ b := h.1
  omega

theorem decodeUTF8_nil : decodeUTF8 [] = some [] := rfl

/-- A valid sequence cut at an ASCII byte: both sides are valid. -/
theorem decodeUTF8_split (a c : List Byte) (b : Byte) (hb : b < 128)
    (h : (decodeUTF8 (a ++ b :: c)).isSome) :
    (decodeUTF8 a).isSome ∧ (decodeUTF8 c).isSome := by
  have hnc := isCont_ascii b hb
  generalize hn : a.length = n
  induction n using Nat.strong_induction_on generalizing a with
  | _ n ih =>
    cases a with
    | nil =>
      rw [List.nil_append, decodeUTF8_cons, if_pos hb, Option.isSome_map'] at h
      exact ⟨rfl, h⟩
    | cons a0 a =>
      simp only [List.length_cons] at hn
      rw [List.cons_append, decodeUTF8_cons] at h
      rw [decodeUTF8_cons]
      by_cases c1 : a0 < 0x80
      · rw [if_pos c1, Option.isSome_map'] at h ⊢
        exact ih _ (by omega) a h rfl
      · rw [if_neg c1] at h ⊢
        by_cases c2 : 0xC2 ≤ a0 ∧ a0 ≤ 0xDF
        · rw [if_pos c2] at h ⊢
          cases a with
          | nil => simp [hnc] at h
          | cons a1 a =>
            simp only [List.length_cons] at hn
            simp only [List.cons_append] at h ⊢
            by_cases d : isCont a1 = true
            · rw [if_pos d, Option.isSome_map'] at h ⊢
              exact ih _ (by omega) a h rfl
            · rw [if_neg d] at h; simp at h
        · rw [if_neg c2] at h ⊢
          by_cases c3 : 0xE0 ≤ a0 ∧ a0 ≤ 0xEF
          · rw [if_pos c3] at h ⊢
            cases a with
            | nil => cases c <;> simp [hnc] at h
            | cons a1 a =>
              cases a with
              | nil => simp [hnc] at h
              | cons a2 a =>
                simp only [List.length_cons] at hn
                simp only [List.cons_append] at h ⊢
                split_ifs at h ⊢ with d
                · rw [Option.isSome_map'] at h ⊢
                  exact ih _ (by omega) a h rfl
                · simp at h
          · rw [if_neg c3] at h ⊢
            by_cases c4 : 0xF0 ≤ a0 ∧ a0 ≤ 0xF4
            · rw [if_pos c4] at h ⊢
              cases a with
              | nil =>
                cases c with
                | nil => simp at h
                | cons c0 c => cases c <;> simp [hnc] at h
              | cons a1 a =>
                cases a with
                | nil => cases c <;> simp [hnc] at h
                | cons a2 a =>
                  cases a with
                  | nil => simp [hnc] at h
                  | cons a3 a =>
                    simp only [List.length_cons] at hn
                    simp only [List.cons_append] at h ⊢
                    split_ifs at h ⊢ with d
                    · rw [Option.isSome_map'] at h ⊢
                      exact ih _ (by omega) a h rfl
                    · simp at h
            · rw [if_neg c4] at h
              simp at h

/-- Two valid sequences, one after the other, form a valid sequence. -/
theorem decodeUTF8_append (a c : List Byte) (ha : (decodeUTF8 a).isSome)
    (hc : (decodeUTF8 c).isSome) : (decodeUTF8 (a ++ c)).isSome := by
  generalize hn : a.length = n
  induction n using Nat.strong_induction_on generalizing a with
  | _ n ih =>
    cases a with
    | nil => exact hc
    | cons a0 a =>
      simp only [List.length_cons] at hn
      rw [decodeUTF8_cons] at ha
      rw [List.cons_append, decodeUTF8_cons]
      by_cases c1 : a0 < 0x80
      · rw [if_pos c1, Option.isSome_map'] at ha ⊢
        exact ih _ (by omega) a ha rfl
      · rw [if_neg c1] at ha ⊢
        by_cases c2 : 0xC2 ≤ a0 ∧ a0 ≤ 0xDF
        · rw [if_pos c2] at ha ⊢
          cases a with
          | nil => simp at ha
          | cons a1 a =>
            simp only [List.length_cons] at hn
            simp only [List.cons_append] at ha ⊢
            by_cases d : isCont a1 = true
            · rw [if_pos d, Option.isSome_map'] at ha ⊢
              exact ih _ (by omega) a ha rfl
            · rw [if_neg d] at ha; simp at ha
        · rw [if_neg c2] at ha ⊢
          by_cases c3 : 0xE0 ≤ a0 ∧ a0 ≤ 0xEF
          · rw [if_pos c3] at ha ⊢
            cases a with
            | nil => simp at ha
            | cons a1 a =>
              cases a with
              | nil => simp at ha
              | cons a2 a =>
                simp only [List.length_cons] at hn
                simp only [List.cons_append] at ha ⊢
                split_ifs at ha ⊢ with d
                · rw [Option.isSome_map'] at ha ⊢
                  exact ih _ (by omega) a ha rfl
                · simp at ha
          · rw [if_neg c3] at ha ⊢
            by_cases c4 : 0xF0 ≤ a0 ∧ a0 ≤ 0xF4
            · rw [if_pos c4] at ha ⊢
              cases a with
              | nil => simp at ha
              | cons a1 a =>
                cases a with
                | nil => simp at ha
                | cons a2 a =>
                  cases a with
                  | nil => simp at ha
                  | cons a3 a =>
                    simp only [List.length_cons] at hn
                    simp only [List.cons_append] at ha ⊢
                    split_ifs at ha ⊢ with d
                    · rw [Option.isSome_map'] at ha ⊢
                      exact ih _ (by omega) a ha rfl
                    · simp at ha
            · rw [if_neg c4] at ha
              simp at ha

/-! ## Lemmas: tokens of a valid content -/

theorem exists_first_zero (s : List Byte) (h : 0 ∈ s) :
    ∃ x r, s = x ++ 0 :: r ∧ 0 ∉ x := by
  induction s with
  | nil => simp at h
  | cons b s ih =>
    by_cases hb : b = 0
    · exact ⟨[], s, by simp [hb], by simp⟩
    · have hs : 0 ∈ s := by
        rcases List.mem_cons.mp h with h1 | h1
        · exact absurd h1.symm hb
        · exact h1
      obtain ⟨x, r, h1, h2⟩ := ih hs
      refine ⟨b :: x, r, by simp [h1], ?_⟩
      intro hm
      rcases List.mem_cons.mp hm with h3 | h3
      · exact hb h3.symm
      · exact h2 h3

theorem cString_cut (a r : List Byte) (h0 : 0 ∉ a) : cString (a ++ 0 :: r) = a := by
  rw [cString_append_of_no_zero a _ h0]
  simp [cString, List.takeWhile_cons]

theorem valid_cString (l : List Byte) (h : (decodeUTF8 l).isSome) :
    (decodeUTF8 (cString l)).isSome := by
  by_cases h0 : 0 ∈ l
  · obtain ⟨x, r, rfl, hx⟩ := exists_first_zero l h0
    rw [cString_cut x r hx]
    exact (decodeUTF8_split x r 0 (by decide) h).1
  · rw [cString_of_no_zero l h0]
    exact h

theorem valid_span (s t : List Byte) (h : (decodeUTF8 s).isSome)
    (ht : t ∈ s.splitOn COMMA) : (decodeUTF8 t).isSome := by
  generalize hn : s.length = n
  induction n using Nat.strong_induction_on generalizing s with
  | _ n ih =>
    by_cases hc : COMMA ∈ s
    · obtain ⟨a, b, rfl⟩ := List.append_of_mem hc
      rw [splitOn_append_cons] at ht
      simp only [List.length_append, List.length_cons] at hn
      have hv := decodeUTF8_split a b COMMA (by decide) h
      rcases List.mem_append.mp ht with h1 | h1
      · exact ih _ (by omega) a hv.1 h1 rfl
      · exact ih _ (by omega) b hv.2 h1 rfl
    · rw [splitOn_single s hc, List.mem_singleton] at ht
      rw [ht]
      exact h

theorem valid_strip (t : List Byte) (h : (decodeUTF8 t).isSome) :
    (decodeUTF8 (t.rdropWhile isTerminator)).isSome := by
  induction t using List.reverseRecOn with
  | nil => exact h
  | append_singleton u x ih =>
    rw [List.rdropWhile_concat]
    by_cases hx : isTerminator x = true
    · rw [if_pos hx]
      have hx2 : x < 128 := by
        rcases (isTerminator_iff x).mp hx with h1 | h1 <;> rw [h1] <;> decide
      exact ih (decodeUTF8_split u [] x hx2 h).1
    · rw [if_neg hx]
      exact h

theorem valid_physLines (s : List Byte) (h : (decodeUTF8 s).isSome) :
    ∀ l ∈ physLines s, (decodeUTF8 l).isSome := by
  generalize hn : s.length = n
  induction n using Nat.strong_induction_on generalizing s with
  | _ n ih =>
    intro l hl
    by_cases hlf : LF ∈ s
    · obtain ⟨x, r, rfl, hx⟩ := exists_first_lf s hlf
      simp only [List.length_append, List.length_cons] at hn
      have hv := decodeUTF8_split x r LF (by decide) h
      rw [physLines_lf x r hx] at hl
      rcases List.mem_cons.mp hl with h1 | h1
      · rw [h1]
        exact decodeUTF8_append x [LF] hv.1 (by decide)
      · exact ih _ (by omega) r hv.2 rfl l h1
    · by_cases hne : s = []
      · subst hne
        simp [physLines] at hl
      · rw [physLines_eof s hne hlf, List.mem_singleton] at hl
        rw [hl]
        exact h

/-- The tokens of a raw line that is valid UTF-8 are valid UTF-8. -/
theorem valid_lineTokens (l : List Byte) (h : (decodeUTF8 l).isSome) :
    ∀ t ∈ lineTokens l, (decodeUTF8 t).isSome := by
  intro t ht
  rw [lineTokens_eq] at ht
  simp only [referenceTokens, List.mem_map] at ht
  obtain ⟨u, hu, rfl⟩ := ht
  exact valid_strip u (valid_span _ u (valid_cString l h) (List.mem_filter.mp hu).1)

/-- A raw line that is valid UTF-8 yields a row. -/
theorem parseLine_ok_of_valid (l : List Byte) (h : (decodeUTF8 l).isSome) :
    ∃ row, parseLine l = .ok row := by
  rw [parseLine_eq]
  obtain ⟨row, hrow, _⟩ := decodeAll_of_all_some _ (valid_lineTokens l h)
  exact ⟨row, hrow⟩

theorem parseAll_ok_of_forall (ls : List (List Byte))
    (h : ∀ l ∈ ls, ∃ row, parseLine l = .ok row) : ∃ doc, parseAll ls = .ok doc := by
  induction ls with
  | nil => exact ⟨[], rfl⟩
  | cons l ls ih =>
    obtain ⟨row, hrow⟩ := h l (List.mem_cons_self _ _)
    obtain ⟨doc, hdoc⟩ := ih (fun u hu => h u (List.mem_cons_of_mem _ hu))
    exact ⟨row :: doc, by rw [parseAll_cons, hrow, hdoc]⟩

/-! ## Lemmas: the last field of a line -/

theorem afterLastComma_no_comma (l : List Byte) : COMMA ∉ afterLastComma l := by
  rw [afterLastComma, List.mem_reverse]
  exact takeWhile_no_comma _

theorem afterLastComma_cases (l : List Byte) :
    (COMMA ∉ l ∧ afterLastComma l = l) ∨ ∃ pre, l = pre ++ COMMA :: afterLastComma l := by
  have hsplit := List.takeWhile_append_dropWhile (fun c => c != COMMA) l.reverse
  rcases dropWhile_comma_cases l.reverse with h | ⟨r, h⟩
  · left
    rw [h, List.append_nil] at hsplit
    have h2 : afterLastComma l = l := by
      rw [afterLastComma, hsplit, List.reverse_reverse]
    exact ⟨h2 ▸ afterLastComma_no_comma l, h2⟩
  · right
    refine ⟨r.reverse, ?_⟩
    rw [h] at hsplit
    have := congrArg List.reverse hsplit
    rw [List.reverse_reverse, List.reverse_append, List.reverse_cons,
      List.append_assoc] at this
    rw [afterLastComma]
    exact this.symm

theorem afterLastComma_ne_nil (l : List Byte) (hl : l.getLast? = some LF) :
    afterLastComma l ≠ [] := by
  obtain ⟨x, rfl⟩ := List.getLast?_eq_some_iff.mp hl
  simp [afterLastComma, List.takeWhile_cons]

theorem rdropWhile_append_all (s t : List Byte) (h : ∀ b ∈ t, isTerminator b = true) :
    (s ++ t).rdropWhile isTerminator = s.rdropWhile isTerminator := by
  induction t using List.reverseRecOn with
  | nil => rw [List.append_nil]
  | append_singleton u x ih =>
    rw [← List.append_assoc, List.rdropWhile_concat_pos _ _ _ (h x (by simp))]
    exact ih (fun b hb => h b (List.mem_append_left _ hb))

theorem rdropWhile_append_keep (s t : List Byte) (h : t.rdropWhile isTerminator ≠ []) :
    (s ++ t).rdropWhile isTerminator = s ++ t.rdropWhile isTerminator := by
  induction t using List.reverseRecOn with
  | nil => simp at h
  | append_singleton u x ih =>
    by_cases hx : isTerminator x = true
    · rw [List.rdropWhile_concat_pos _ _ _ hx] at h ⊢
      rw [← List.append_assoc, List.rdropWhile_concat_pos _ _ _ hx]
      exact ih h
    · rw [List.rdropWhile_concat_neg _ _ _ hx, ← List.append_assoc,
        List.rdropWhile_concat_neg _ _ _ hx]

theorem decodeUTF8_eq_nil (bs : List Byte) (h : decodeUTF8 bs = some []) : bs = [] :=
  (decodeUTF8_lowPreserved bs [] h).2.2 rfl

/-- When the last span strips to nothing, the stripped line is empty or ends
with a delimiter, and conversely. -/
theorem strip_last_span (l : List Byte) :
    (afterLastComma l).rdropWhile isTerminator = []
      ↔ (l.rdropWhile isTerminator = []
          ∨ (l.rdropWhile isTerminator).getLast? = some COMMA) := by
  have hsub : ∀ c, ((afterLastComma l).rdropWhile isTerminator).getLast? = some c →
      c ≠ COMMA := by
    intro c hc hcc
    have h1 := List.mem_of_getLast?_eq_some hc
    have h2 := (List.rdropWhile_prefix isTerminator (afterLastComma l)).subset h1
    exact afterLastComma_no_comma l (hcc ▸ h2)
  by_cases hs : (afterLastComma l).rdropWhile isTerminator = []
  · have hall : ∀ b ∈ afterLastComma l, isTerminator b = true :=
      List.rdropWhile_eq_nil_iff.mp hs
    refine ⟨fun _ => ?_, fun _ => hs⟩
    rcases afterLastComma_cases l with ⟨_, h2⟩ | ⟨pre, h2⟩
    · left
      rw [← h2]; exact hs
    · right
      have e : l = (pre ++ [COMMA]) ++ afterLastComma l := by
        conv_lhs => rw [h2]
        simp
      rw [e, rdropWhile_append_all _ _ hall,
        List.rdropWhile_concat_neg _ _ _ (by decide)]
      simp
  · refine ⟨fun h => absurd h hs, fun h => ?_⟩
    exfalso
    rcases afterLastComma_cases l with ⟨_, h2⟩ | ⟨pre, h2⟩
    · rw [h2] at hs hsub
      rcases h with h | h
      · exact hs h
      · exact hsub COMMA h rfl
    · have e : l = (pre ++ [COMMA]) ++ afterLastComma l := by
        conv_lhs => rw [h2]
        simp
      have e2 := rdropWhile_append_keep (pre ++ [COMMA]) _ hs
      rw [← e] at e2
      rw [e2] at h
      rcases h with h | h
      · simp at h
      · rw [List.getLast?_append_of_ne_nil _ hs] at h
        exact hsub COMMA h rfl

/-- The tokens of a line that ends with a line feed: the last one is the
stripped text after the last delimiter. -/
theorem referenceTokens_last (l : List Byte) (hl : l.getLast? = some LF) :
    ∃ ts, referenceTokens l = ts ++ [(afterLastComma l).rdropWhile isTerminator] := by
  have hne := afterLastComma_ne_nil l hl
  rcases afterLastComma_cases l with ⟨h1, h2⟩ | ⟨pre, h2⟩
  · refine ⟨[], ?_⟩
    rw [h2] at hne ⊢
    rw [referenceTokens_plain l h1 hne]
    rfl
  · refine ⟨referenceTokens pre, ?_⟩
    conv_lhs => rw [h2]
    rw [referenceTokens_append_cons,
      referenceTokens_plain _ (afterLastComma_no_comma l) hne]

/-! ## The claims -/

/-- C1: for every raw line of at most 4095 bytes without a zero byte whose
tokens all decode, the row produced is the decoding, token by token, of the
reference tokens: the line split on every `,`, the zero-length spans
discarded, the trailing carriage returns and line feeds of each span
stripped. -/
theorem parseLine_reference (line : List Byte) (_hlen : line.length ≤ 4095)
    (h0 : 0 ∉ line) (hdec : ∀ t ∈ referenceTokens line, (decodeUTF8 t).isSome) :
    ∃ row, parseLine line = .ok row
      ∧ (referenceTokens line).map decodeUTF8 = row.map some := by
  rw [parseLine_eq, lineTokens_eq, cString_of_no_zero line h0]
  exact decodeAll_of_all_some _ hdec

/-- C1 at the raw line `,a,,b\r\n`. -/
theorem parseLine_reference_witness :
    ∃ row, parseLine [44, 97, 44, 44, 98, 13, 10] = .ok row
      ∧ (referenceTokens [44, 97, 44, 44, 98, 13, 10]).map decodeUTF8 = row.map some :=
  parseLine_reference [44, 97, 44, 44, 98, 13, 10] (by decide) (by decide) (by decide)

/-- C2 fails as stated, at three contents that are ASCII text without two
consecutive delimiters and without a delimiter at the start or the end of a
line.  `a\r,b\n` parses to `[["a","b"]]`, its textbook split is
`[["a\r","b"]]`.  `a\x00b\n` parses to `[["a"]]`, its textbook split is
`[["a\x00b"]]`.  A single line of 4096 letters `a` parses to two rows. -/
theorem textbook_counterexample :
    (PlainDelimited [97, 13, 44, 98, 10]
        ∧ readStream [97, 13, 44, 98, 10] = .ok [[[97], [98]]]
        ∧ textbookSplit [97, 13, 44, 98, 10] = [[[97, 13], [98]]])
      ∧ (PlainDelimited [97, 0, 98, 10]
        ∧ readStream [97, 0, 98, 10] = .ok [[[97]]]
        ∧ textbookSplit [97, 0, 98, 10] = [[[97, 0, 98]]])
      ∧ (PlainDelimited (List.replicate 4095 97 ++ [97])
        ∧ readStream (List.replicate 4095 97 ++ [97])
            = .ok [[List.replicate 4095 97], [[97]]]
        ∧ textbookSplit (List.replicate 4095 97 ++ [97])
            = [[List.replicate 4095 97 ++ [97]]])
      ∧ readStream [97, 13, 44, 98, 10] ≠ .ok (textbookSplit [97, 13, 44, 98, 10]) := by
  have h1 : readStream [97, 13, 44, 98, 10] = .ok [[[97], [98]]] := rfl
  have h2 : textbookSplit [97, 13, 44, 98, 10] = [[[97, 13], [98]]] := by decide
  refine ⟨⟨⟨by decide, by decide⟩, h1, h2⟩, ⟨⟨by decide, by decide⟩, rfl, by decide⟩,
    readStream_letters_4096 _ (List.length_replicate _ _)
      (fun b hb => List.eq_of_mem_replicate hb), ?_⟩
  rw [h1, h2]
  intro h
  have := Except.ok.inj h
  revert this
  decide

/-- C2 as amended: for a content that is ASCII text without two consecutive
delimiters and without a delimiter at the start or the end of a line, that
has no zero byte, whose physical lines have at most 4095 bytes with their
terminator, and in whose line contents no carriage return stands right before
a delimiter or at the end, the document is the textbook split of each
physical line on `,` with the line terminators stripped. -/
theorem readStream_textbook (content : List Byte) (hplain : PlainDelimited content)
    (h0 : 0 ∉ content) (hlen : ∀ l ∈ physLines content, l.length ≤ 4095)
    (hcr : ∀ l ∈ physLines content,
      (lineContent l).getLast? ≠ some CR ∧ ¬ [CR, COMMA] <:+: lineContent l) :
    readStream content = .ok (textbookSplit content) := by
  have hr := rawLines_eq_physLines content hlen
  rw [readStream_eq, hr, textbookSplit]
  apply parseAll_of_forall
  intro l hl
  have hl2 : l ∈ rawLines content := by rw [hr]; exact hl
  have hsub := rawLines_subset content l hl2
  obtain ⟨hne, hlf⟩ := rawLines_mem content l hl2
  exact parseLine_textbook l hne hlf (fun b hb => hplain.1 b (hsub b hb))
    (fun h => h0 (hsub 0 h)) (hcr l hl) (hplain.2 l hl)

/-- C2 as amended, at the content `a,b,c\n1,2,3\n`, which yields
`[["a","b","c"],["1","2","3"]]`, and at the content `a\rb,c\r\n`, which
yields `[["a\rb","c"]]`. -/
theorem readStream_textbook_witness :
    (readStream [97, 44, 98, 44, 99, 10, 49, 44, 50, 44, 51, 10]
        = .ok (textbookSplit [97, 44, 98, 44, 99, 10, 49, 44, 50, 44, 51, 10])
      ∧ textbookSplit [97, 44, 98, 44, 99, 10, 49, 44, 50, 44, 51, 10]
        = [[[97], [98], [99]], [[49], [50], [51]]])
      ∧ (readStream [97, 13, 98, 44, 99, 13, 10]
        = .ok (textbookSplit [97, 13, 98, 44, 99, 13, 10])
      ∧ textbookSplit [97, 13, 98, 44, 99, 13, 10] = [[[97, 13, 98], [99]]]) :=
  ⟨⟨readStream_textbook [97, 44, 98, 44, 99, 10, 49, 44, 50, 44, 51, 10]
      ⟨by decide, by decide⟩ (by decide) (by decide) (by decide), by decide⟩,
    ⟨readStream_textbook [97, 13, 98, 44, 99, 13, 10]
      ⟨by decide, by decide⟩ (by decide) (by decide) (by decide), by decide⟩⟩

/-- C3 fails as stated: the content `a,b,\n` parses to `[["a","b",""]]`, with a
trailing empty field, not to `[["a","b"]]`. -/
theorem trailing_delimiter_counterexample :
    readStream [97, 44, 98, 44, 10] = .ok [[[97], [98], []]]
      ∧ readStream [97, 44, 98, 44, 10] ≠ .ok [[[97], [98]]] := by
  have h : readStream [97, 44, 98, 44, 10] = .ok [[[97], [98], []]] := rfl
  refine ⟨h, ?_⟩
  rw [h]
  simp

/-- C3 as amended: for a line whose content `c`, free of zero bytes, is
followed by a `,` and the line terminator, the terminator forms a token of its
own, so the row is the row of `c` followed by one empty field; a trailing `,`
yields no field only when it is the last byte of the raw line. -/
theorem parseLine_trailing_delimiter (c term : List Byte) (h0 : 0 ∉ c)
    (hterm : term = [LF] ∨ term = [CR, LF]) :
    parseLine (c ++ COMMA :: term)
        = (match parseLine c with
          | .error e => .error e
          | .ok row => .ok (row ++ [[]]))
      ∧ parseLine (c ++ [COMMA]) = parseLine c := by
  have hterm2 : parseLine term = .ok [[]] := by
    rcases hterm with h | h <;> subst h <;> rfl
  constructor
  · rw [parseLine_append_cons c term h0, hterm2]
  · rw [parseLine_append_cons c [] h0, parseLine_nil]
    cases parseLine c <;> simp

/-- C3 as amended, at the lines `a,b,\n` and `a,b,`. -/
theorem parseLine_trailing_delimiter_witness :
    parseLine [97, 44, 98, 44, 10] = .ok [[97], [98], []]
      ∧ parseLine [97, 44, 98, 44] = .ok [[97], [98]] :=
  parseLine_trailing_delimiter [97, 44, 98] [LF] (by decide) (Or.inl rfl)

/-- C4: an extra `,` next to a `,` of a line, or at the start of a line, does
not change the row of the line; the content `x,,y\n` parses to `[["x","y"]]`,
as `x,y\n` does. -/
theorem parseLine_extra_delimiter :
    (∀ a b : List Byte, parseLine (a ++ COMMA :: COMMA :: b) = parseLine (a ++ COMMA :: b))
      ∧ (∀ l : List Byte, parseLine (COMMA :: l) = parseLine l)
      ∧ readStream [120, 44, 44, 121, 10] = .ok [[[120], [121]]]
      ∧ readStream [120, 44, 121, 10] = .ok [[[120], [121]]] := by
  refine ⟨?_, parseLine_comma_cons, rfl, rfl⟩
  intro a b
  by_cases h0 : 0 ∈ a
  · rw [parseLine_of_zero a _ h0, parseLine_of_zero a _ h0]
  · rw [parseLine_append_cons a _ h0, parseLine_append_cons a _ h0, parseLine_comma_cons]

/-- C5 fails as stated: in the content `a,b\x00\xFF\n` the span `b\x00\xFF`
between the delimiter and the line terminator holds a lone byte `0xFF` and is
not valid UTF-8, and `read_csv_file` returns the document `[["a","b"]]`: the
bytes after the zero byte never reach the decoder. -/
theorem decode_error_counterexample :
    [97, 44, 98, 0, 255, 10] ∈ rawLines [97, 44, 98, 0, 255, 10]
      ∧ [98, 0, 255] ∈ referenceTokens [97, 44, 98, 0, 255, 10]
      ∧ decodeUTF8 [98, 0, 255] = none
      ∧ readStream [97, 44, 98, 0, 255, 10] = .ok [[[97], [98]]] :=
  ⟨by decide, by decide, by decide, rfl⟩

/-- C5 as amended: when some token of the part of some raw line before its
first zero byte (the whole raw line when it has none) is not valid UTF-8,
`read_csv_file` raises the decoding error and returns no document, however
many valid lines and tokens come before it. -/
theorem readStream_decode_error (content : List Byte)
    (h : ∃ l ∈ rawLines content, ∃ t ∈ referenceTokens (cString l), decodeUTF8 t = none) :
    readStream content = .error .unicodeError
      ∧ ∀ doc, readStream content ≠ .ok doc := by
  have h1 : readStream content = .error .unicodeError := by
    rw [readStream_eq]
    apply parseAll_of_bad
    obtain ⟨l, hl, t, ht, hbad⟩ := h
    exact ⟨l, hl, t, by rw [lineTokens_eq]; exact ht, hbad⟩
  refine ⟨h1, ?_⟩
  intro doc hd
  rw [h1] at hd
  exact Except.noConfusion hd

/-- C5 as amended, at the content `a,b\nc,\xFF\n`, whose bad token is the
last one. -/
theorem readStream_decode_error_witness :
    readStream [97, 44, 98, 10, 99, 44, 255, 10] = .error .unicodeError
      ∧ ∀ doc, readStream [97, 44, 98, 10, 99, 44, 255, 10] ≠ .ok doc :=
  readStream_decode_error [97, 44, 98, 10, 99, 44, 255, 10]
    ⟨[99, 44, 255, 10], by decide, [255], by decide, by decide⟩

/-- C6 fails as stated: for the line content of 4094 letters `a`, the file
with `\r\n` is cut after the carriage return and yields a second row, the file
with `\n` yields one row. -/
theorem crlf_counterexample :
    (List.replicate 4094 97).length ≤ 4095
      ∧ CR ∉ List.replicate 4094 97 ∧ LF ∉ List.replicate 4094 97
      ∧ 0 ∉ List.replicate 4094 97
      ∧ readStream (List.replicate 4094 97 ++ [CR, LF])
          = .ok [[List.replicate 4094 97], [[]]]
      ∧ readStream (List.replicate 4094 97 ++ [LF]) = .ok [[List.replicate 4094 97]]
      ∧ readStream (List.replicate 4094 97 ++ [CR, LF])
          ≠ readStream (List.replicate 4094 97 ++ [LF]) := by
  have hx : ∀ b ∈ List.replicate 4094 97, b = 97 := fun b hb => List.eq_of_mem_replicate hb
  have hno : ∀ c : Byte, c ≠ 97 → c ∉ List.replicate 4094 97 := fun c hc h => hc (hx c h)
  obtain ⟨h1, h2⟩ := readStream_letters_4094 _ (List.length_replicate _ _) hx
  refine ⟨?_, hno _ (by decide), hno _ (by decide), hno _ (by decide), h1, h2, ?_⟩
  · rw [List.length_replicate]; decide
  · rw [h1, h2]
    intro h
    have := congrArg List.length (Except.ok.inj h)
    change 2 = 1 at this
    omega

/-- C6 as amended: for a line content `s` without `\r`, `\n` or zero byte, at
most 4095 bytes long and not 4094 bytes long, the files `s ++ "\r\n"` and
`s ++ "\n"` yield the same result. -/
theorem readStream_crlf (s : List Byte) (_hcr : CR ∉ s) (hlf : LF ∉ s) (_h0 : 0 ∉ s)
    (hlen : s.length ≤ 4095) (hne : s.length ≠ 4094) :
    readStream (s ++ [CR, LF]) = readStream (s ++ [LF]) := by
  rw [readStream_eq, readStream_eq]
  by_cases h : s.length = 4095
  · rw [rawLines_full s _ h hlf, rawLines_full s _ h hlf]
    rfl
  · have e : s ++ [CR, LF] = (s ++ [CR]) ++ LF :: [] := by simp
    have hlf2 : LF ∉ s ++ [CR] := by simp [hlf]
    rw [e, rawLines_lf (s ++ [CR]) [] (by simp; omega) hlf2,
      rawLines_lf s [] (by omega) hlf, rawLines_nil, parseAll_cons, parseAll_cons]
    have e2 : s ++ [CR] ++ [LF] = s ++ [CR, LF] := by simp
    rw [e2, parseLine_crlf]

/-- C6 as amended, at the content `a,b`: both files yield `[["a","b"]]`. -/
theorem readStream_crlf_witness :
    readStream ([97, 44, 98] ++ [CR, LF]) = readStream ([97, 44, 98] ++ [LF])
      ∧ readStream ([97, 44, 98] ++ [LF]) = .ok [[[97], [98]]] :=
  ⟨readStream_crlf [97, 44, 98] (by decide) (by decide) (by decide) (by decide) (by decide),
    rfl⟩

/-- C7 fails as stated: the file of 4095 letters `a` and a line feed has one
physical line, of 4095 content bytes, and yields two rows. -/
theorem one_row_per_line_counterexample :
    (∀ l ∈ physLines (List.replicate 4095 97 ++ [LF]), (lineContent l).length ≤ 4095)
      ∧ (physLines (List.replicate 4095 97 ++ [LF])).length = 1
      ∧ readStream (List.replicate 4095 97 ++ [LF])
          = .ok [[List.replicate 4095 97], [[]]] := by
  have hx : ∀ b ∈ List.replicate 4095 97, b = 97 := fun b hb => List.eq_of_mem_replicate hb
  have hp : physLines (List.replicate 4095 97 ++ [LF]) = [List.replicate 4095 97 ++ [LF]] := by
    rw [physLines_lf _ [] (letters_no_lf _ hx)]
    rfl
  have hlast : (List.replicate 4095 97).getLast? ≠ some CR := by
    intro h
    have := hx CR (List.mem_of_getLast?_eq_some h)
    exact absurd this (by decide)
  refine ⟨?_, ?_, readStream_letters_4095 _ (List.length_replicate _ _) hx⟩
  · intro l hl
    rw [hp, List.mem_singleton] at hl
    rw [hl, lineContent_lf _ hlast, List.length_replicate]
  · rw [hp]
    rfl

/-- C7 as amended: when every physical line, its terminator included, has at
most 4095 bytes, the raw lines are the physical lines, and a document that is
returned has exactly one row per physical line, in file order. -/
theorem one_row_per_line (s : List Byte) (h : ∀ l ∈ physLines s, l.length ≤ 4095) :
    rawLines s = physLines s
      ∧ ∀ doc, readStream s = .ok doc →
          List.Forall₂ (fun l row => parseLine l = .ok row) (physLines s) doc := by
  have hr := rawLines_eq_physLines s h
  refine ⟨hr, ?_⟩
  intro doc hdoc
  rw [readStream_eq, hr] at hdoc
  exact parseAll_ok_forall₂ _ doc hdoc

/-- C7 as amended, at the content `a,b\nc`, which yields `[["a","b"],["c"]]`. -/
theorem one_row_per_line_witness :
    rawLines [97, 44, 98, 10, 99] = physLines [97, 44, 98, 10, 99]
      ∧ List.Forall₂ (fun l row => parseLine l = .ok row)
          (physLines [97, 44, 98, 10, 99]) [[[97], [98]], [[99]]] :=
  ⟨(one_row_per_line [97, 44, 98, 10, 99] (by decide)).1,
    (one_row_per_line [97, 44, 98, 10, 99] (by decide)).2 [[[97], [98]], [[99]]] rfl⟩

/-- C8: for a content `X ++ R` whose first 4095 bytes `X` hold no line feed,
with `R` not empty, the result is the result on `X` alone, a single row,
followed by the result on `R` alone, and an error when one of the two is. -/
theorem readStream_oversized (X R : List Byte) (hX : X.length = 4095) (hlf : LF ∉ X)
    (_hR : R ≠ []) :
    readStream (X ++ R)
        = (match readStream X with
          | .error e => .error e
          | .ok a =>
            match readStream R with
            | .error e => .error e
            | .ok b => .ok (a ++ b))
      ∧ (∀ a, readStream X = .ok a → a.length = 1)
      ∧ ((∃ e, readStream (X ++ R) = .error e)
          ↔ (∃ e, readStream X = .error e) ∨ (∃ e, readStream R = .error e)) := by
  have hne : X ≠ [] := by intro h; rw [h] at hX; simp at hX
  have h1 : rawLines (X ++ R) = [X] ++ rawLines R := rawLines_full X R hX hlf
  have h2 : rawLines X = [X] := rawLines_eof X hne (by omega) hlf
  have h3 : readStream (X ++ R)
      = (match readStream X with
        | .error e => .error e
        | .ok a =>
          match readStream R with
          | .error e => .error e
          | .ok b => .ok (a ++ b)) := by
    rw [readStream_eq, readStream_eq, readStream_eq, h1, parseAll_append, h2]
  refine ⟨h3, ?_, ?_⟩
  · intro a ha
    rw [readStream_eq, h2] at ha
    have := parseAll_ok_forall₂ _ a ha
    exact (List.Forall₂.length_eq this).symm
  · rw [h3]
    cases readStream X with
    | error e => simp
    | ok a => cases readStream R <;> simp

/-- C8 at 4095 letters `a` followed by the letter `b`. -/
theorem readStream_oversized_witness :
    readStream (List.replicate 4095 97 ++ [98])
        = (match readStream (List.replicate 4095 97) with
          | .error e => .error e
          | .ok a =>
            match readStream [98] with
            | .error e => .error e
            | .ok b => .ok (a ++ b))
      ∧ (∀ a, readStream (List.replicate 4095 97) = .ok a → a.length = 1)
      ∧ ((∃ e, readStream (List.replicate 4095 97 ++ [98]) = .error e)
          ↔ (∃ e, readStream (List.replicate 4095 97) = .error e)
            ∨ (∃ e, readStream [98] = .error e)) :=
  readStream_oversized (List.replicate 4095 97) [98] (List.length_replicate _ _)
    (fun h => absurd (List.eq_of_mem_replicate h) (by decide)) (by decide)

/-- C10: for a content `A` that ends with a line feed and any content `B`, the
result on `A ++ B` is the document of `A` followed by the document of `B`, and
an error when reading `A` or reading `B` fails. -/
theorem readStream_append (A B : List Byte) (hA : A.getLast? = some LF) :
    readStream (A ++ B)
        = (match readStream A with
          | .error e => .error e
          | .ok a =>
            match readStream B with
            | .error e => .error e
            | .ok b => .ok (a ++ b))
      ∧ ((∃ e, readStream (A ++ B) = .error e)
          ↔ (∃ e, readStream A = .error e) ∨ (∃ e, readStream B = .error e)) := by
  have h3 : readStream (A ++ B)
      = (match readStream A with
        | .error e => .error e
        | .ok a =>
          match readStream B with
          | .error e => .error e
          | .ok b => .ok (a ++ b)) := by
    rw [readStream_eq, readStream_eq, readStream_eq, rawLines_append A B hA, parseAll_append]
  refine ⟨h3, ?_⟩
  rw [h3]
  cases readStream A with
  | error e => simp
  | ok a => cases readStream B <;> simp

/-- C10 at `A = "a,b\n"` and `B = "c\nd"`. -/
theorem readStream_append_witness :
    readStream ([97, 44, 98, 10] ++ [99, 10, 100])
        = (match readStream [97, 44, 98, 10] with
          | .error e => .error e
          | .ok a =>
            match readStream [99, 10, 100] with
            | .error e => .error e
            | .ok b => .ok (a ++ b))
      ∧ ((∃ e, readStream ([97, 44, 98, 10] ++ [99, 10, 100]) = .error e)
          ↔ (∃ e, readStream [97, 44, 98, 10] = .error e)
            ∨ (∃ e, readStream [99, 10, 100] = .error e)) :=
  readStream_append [97, 44, 98, 10] [99, 10, 100] (by decide)

/-- C9 fails as stated: the content `a\rb\n` is read successfully and its
only field, `a\rb`, contains a carriage return. -/
theorem field_cr_counterexample :
    readStream [97, 13, 98, 10] = .ok [[[97, 13, 98]]] ∧ CR ∈ [97, 13, 98] :=
  ⟨rfl, by decide⟩

/-- C9 as amended: in every document that is returned, no field contains a
line feed and no field ends with a carriage return. -/
theorem field_invariant (content : List Byte) (doc : Document)
    (h : readStream content = .ok doc) :
    ∀ row ∈ doc, ∀ f ∈ row, LF ∉ f ∧ f.getLast? ≠ some CR := by
  intro row hrow f hf
  rw [readStream_eq] at h
  obtain ⟨l, hl, hp⟩ := parseAll_ok_mem _ doc h row hrow
  exact parseLine_field l (rawLines_mem content l hl).2 row hp f hf

/-- C9 as amended, at the content `a\rb\r\nc\r,d\n` and the field `a\rb` of
its first row. -/
theorem field_invariant_witness :
    readStream [97, 13, 98, 13, 10, 99, 13, 44, 100, 10] = .ok [[[97, 13, 98]], [[99], [100]]]
      ∧ LF ∉ [97, 13, 98] ∧ [97, 13, 98].getLast? ≠ some CR :=
  ⟨rfl, field_invariant [97, 13, 98, 13, 10, 99, 13, 44, 100, 10]
    [[[97, 13, 98]], [[99], [100]]] rfl [[97, 13, 98]] (by decide) [97, 13, 98] (by decide)⟩

/-- C11: for a content whose physical lines have at most 4095 bytes with
their terminator and that is read successfully, the number of rows is the
number of line feeds, plus one when the content is not empty and does not end
with a line feed; the empty content yields the empty document. -/
theorem row_count (content : List Byte) (doc : Document)
    (hlen : ∀ l ∈ physLines content, l.length ≤ 4095)
    (h : readStream content = .ok doc) :
    doc.length
        = content.count LF
          + (if content ≠ [] ∧ content.getLast? ≠ some LF then 1 else 0)
      ∧ readStream [] = .ok [] := by
  refine ⟨?_, rfl⟩
  rw [readStream_eq, rawLines_eq_physLines content hlen] at h
  rw [parseAll_ok_length _ doc h, physLines_length]

/-- C11 at the contents `a\nb\n` (two rows) and `a\nb` (two rows). -/
theorem row_count_witness :
    (([[[97]], [[98]]] : Document).length
        = ([97, 10, 98, 10] : List Byte).count LF
          + (if ([97, 10, 98, 10] : List Byte) ≠ []
              ∧ ([97, 10, 98, 10] : List Byte).getLast? ≠ some LF then 1 else 0)
      ∧ readStream [] = .ok [])
    ∧ (([[[97]], [[98]]] : Document).length
        = ([97, 10, 98] : List Byte).count LF
          + (if ([97, 10, 98] : List Byte) ≠ []
              ∧ ([97, 10, 98] : List Byte).getLast? ≠ some LF then 1 else 0)
      ∧ readStream [] = .ok []) :=
  ⟨row_count [97, 10, 98, 10] [[[97]], [[98]]] (by decide) rfl,
    row_count [97, 10, 98] [[[97]], [[98]]] (by decide) rfl⟩

/-- C12: a non-empty raw line that consists only of carriage returns and line
feeds yields a row with exactly one field, the empty string. -/
theorem terminator_line (l : List Byte) (hne : l ≠ []) (h : ∀ b ∈ l, b = CR ∨ b = LF) :
    parseLine l = .ok [[]] := by
  have hprop : ∀ b ∈ l, b < 128 ∧ b ≠ 0 ∧ b ≠ COMMA ∧ isTerminator b = true := by
    intro b hb
    rcases h b hb with h1 | h1 <;> subst h1 <;> decide
  have hstrip : l.rdropWhile isTerminator = [] :=
    List.rdropWhile_eq_nil_iff.mpr (fun b hb => (hprop b hb).2.2.2)
  rw [parseLine_plain l (fun b hb => (hprop b hb).1) (fun h0 => (hprop 0 h0).2.1 rfl)
    (fun hc => (hprop COMMA hc).2.2.1 rfl) hne, hstrip]

/-- C12 at the raw line `\n`: the file `\n` yields `[[""]]`. -/
theorem terminator_line_witness :
    parseLine [LF] = .ok [[]] ∧ readStream [LF] = .ok [[[]]] :=
  ⟨terminator_line [LF] (by decide) (by decide), rfl⟩

/-- C13: when the file at the path cannot be opened for reading,
`read_csv_file` raises the file error that carries that path, returns no
document, and reads no line. -/
theorem open_failure (fopen : List Byte → Option (List Byte)) (path : List Byte)
    (h : fopen path = none) :
    read_csv_file fopen (some path) = .error (.fileNotFound path)
      ∧ (∀ doc, read_csv_file fopen (some path) ≠ .ok doc)
      ∧ linesRead fopen (some path) = 0 := by
  have h1 : read_csv_file fopen (some path) = .error (.fileNotFound path) := by
    simp only [read_csv_file, h]
  refine ⟨h1, ?_, ?_⟩
  · intro doc hd
    rw [h1] at hd
    exact Except.noConfusion hd
  · simp only [linesRead, h]

/-- C13 on a file system without any file, at the path `x.csv`. -/
theorem open_failure_witness :
    read_csv_file (fun _ => none) (some [120, 46, 99, 115, 118])
        = .error (.fileNotFound [120, 46, 99, 115, 118])
      ∧ (∀ doc, read_csv_file (fun _ => none) (some [120, 46, 99, 115, 118]) ≠ .ok doc)
      ∧ linesRead (fun _ => none) (some [120, 46, 99, 115, 118]) = 0 :=
  open_failure (fun _ => none) [120, 46, 99, 115, 118] rfl

/-- C17: a zero byte cuts its raw line: the row of a line is the row of its
part before the first zero byte, whatever follows that byte, and a line that
starts with a zero byte yields a row without fields. -/
theorem zero_byte_cut (a r : List Byte) (h0 : 0 ∉ a) :
    parseLine (a ++ 0 :: r) = parseLine a ∧ parseLine (0 :: r) = .ok [] :=
  ⟨parseLine_cut a r h0, parseLine_zero_cons r⟩

/-- C17 at the raw line `a,b\x00\xFF\n`: the byte `0xFF` is never decoded. -/
theorem zero_byte_cut_witness :
    (parseLine ([97, 44, 98] ++ 0 :: [255, 10]) = parseLine [97, 44, 98]
        ∧ parseLine (0 :: [255, 10]) = .ok [])
      ∧ parseLine [97, 44, 98] = .ok [[97], [98]] :=
  ⟨zero_byte_cut [97, 44, 98] [255, 10] (by decide), rfl⟩

/-- C14: the raw lines of a content are the same for any sufficient number
of iterations and are at most as many as its bytes; every raw line is not
empty and has at most 4095 bytes; a line feed occurs in a raw line only as its
last byte; every raw line but the last ends with a line feed or has 4095
bytes; and the raw lines, concatenated in order, are the content. -/
theorem line_source (content : List Byte) :
    (∀ fuel, content.length ≤ fuel → rawLinesLoop fuel content = rawLines content)
      ∧ (rawLines content).length ≤ content.length
      ∧ (∀ l ∈ rawLines content, l ≠ [] ∧ l.length ≤ 4095 ∧ LF ∉ l.dropLast)
      ∧ (∀ l ∈ (rawLines content).dropLast, l.getLast? = some LF ∨ l.length = 4095)
      ∧ (rawLines content).flatten = content :=
  ⟨fun fuel h => rawLinesLoop_fuel fuel content h,
    rawLines_count_le content,
    fun l hl => ⟨(rawLines_mem content l hl).1, rawLines_length_le content l hl,
      lfOnlyLast_dropLast l (rawLines_mem content l hl).2⟩,
    fun l hl => rawLines_dropLast content l hl,
    rawLines_flatten content⟩

/-- C18: the content of 4094 letters `a` followed by the two bytes `0xC3 0xA9`
of the character `é` is valid UTF-8 as a whole, `fgets` cuts it between these
two bytes, and `read_csv_file` raises the decoding error. -/
theorem straddle_decode_error :
    decodeUTF8 (List.replicate 4094 97 ++ [0xC3, 0xA9])
        = some (List.replicate 4094 97 ++ [0xE9])
      ∧ rawLines (List.replicate 4094 97 ++ [0xC3, 0xA9])
        = [List.replicate 4094 97 ++ [0xC3], [0xA9]]
      ∧ readStream (List.replicate 4094 97 ++ [0xC3, 0xA9]) = .error .unicodeError :=
  readStream_letters_straddle _ (List.length_replicate _ _)
    (fun _ hb => List.eq_of_mem_replicate hb)

/-- C15: for a raw line that ends with a line feed, has no zero byte, and
whose tokens all decode, the row has a last field, which is the decoding of
the text after the last `,` of the line (the whole line when it has no `,`)
with its trailing carriage returns and line feeds removed; this field is
empty exactly when the line without its trailing terminators is empty or ends
with `,`. -/
theorem last_field (line : List Byte) (hl : line.getLast? = some LF) (h0 : 0 ∉ line)
    (hdec : ∀ t ∈ referenceTokens line, (decodeUTF8 t).isSome) :
    ∃ row f, parseLine line = .ok row ∧ row.getLast? = some f
      ∧ decodeUTF8 ((afterLastComma line).rdropWhile isTerminator) = some f
      ∧ (f = [] ↔ (line.rdropWhile isTerminator = []
            ∨ (line.rdropWhile isTerminator).getLast? = some COMMA)) := by
  obtain ⟨ts, hts⟩ := referenceTokens_last line hl
  have hlast : (decodeUTF8 ((afterLastComma line).rdropWhile isTerminator)).isSome :=
    hdec _ (by rw [hts]; simp)
  obtain ⟨f, hf⟩ := Option.isSome_iff_exists.mp hlast
  obtain ⟨r1, hr1, _⟩ := decodeAll_of_all_some ts
    (fun t ht => hdec t (by rw [hts]; exact List.mem_append_left _ ht))
  refine ⟨r1 ++ [f], f, ?_, by simp, hf, ?_⟩
  · rw [parseLine_eq, lineTokens_eq, cString_of_no_zero line h0, hts, decodeAll_append, hr1,
      decodeAll_cons, hf]
    rfl
  · rw [← strip_last_span]
    constructor
    · intro hfe
      subst hfe
      exact decodeUTF8_eq_nil _ hf
    · intro hs
      rw [hs, decodeUTF8_nil] at hf
      exact (Option.some.inj hf).symm

/-- C15 at the raw lines `a,b\r\n`, whose last field is `b`, and `a,\r\n`,
whose last field is empty. -/
theorem last_field_witness :
    (∃ row f, parseLine [97, 44, 98, 13, 10] = .ok row ∧ row.getLast? = some f
      ∧ decodeUTF8 ((afterLastComma [97, 44, 98, 13, 10]).rdropWhile isTerminator) = some f
      ∧ (f = [] ↔ (([97, 44, 98, 13, 10] : List Byte).rdropWhile isTerminator = []
            ∨ (([97, 44, 98, 13, 10] : List Byte).rdropWhile isTerminator).getLast?
                = some COMMA)))
      ∧ decodeUTF8 ((afterLastComma [97, 44, 98, 13, 10]).rdropWhile isTerminator)
          = some [98]
      ∧ parseLine [97, 44, 13, 10] = .ok [[97], []] :=
  ⟨last_field [97, 44, 98, 13, 10] (by decide) (by decide) (by decide), by decide, rfl⟩

/-- C16: a content that is valid UTF-8 as a whole and whose physical lines
have at most 4095 bytes with their terminator is read without a decoding
error: every token handed to the decoder is valid UTF-8, and a document is
returned. -/
theorem valid_content_read (content : List Byte) (hvalid : (decodeUTF8 content).isSome)
    (hlen : ∀ l ∈ physLines content, l.length ≤ 4095) :
    (∀ l ∈ rawLines content, ∀ t ∈ lineTokens l, (decodeUTF8 t).isSome)
      ∧ (∃ doc, readStream content = .ok doc)
      ∧ readStream content ≠ .error .unicodeError := by
  have hr := rawLines_eq_physLines content hlen
  have hlines : ∀ l ∈ rawLines content, (decodeUTF8 l).isSome := by
    rw [hr]
    exact valid_physLines content hvalid
  have hdoc : ∃ doc, readStream content = .ok doc := by
    rw [readStream_eq]
    exact parseAll_ok_of_forall _ (fun l hl => parseLine_ok_of_valid l (hlines l hl))
  refine ⟨fun l hl => valid_lineTokens l (hlines l hl), hdoc, ?_⟩
  obtain ⟨doc, hd⟩ := hdoc
  rw [hd]
  exact fun h => Except.noConfusion h

/-- C16 at the content `é,a\r\n\x00,€\n`. -/
theorem valid_content_read_witness :
    (∀ l ∈ rawLines [0xC3, 0xA9, 44, 97, 13, 10, 0, 44, 0xE2, 0x82, 0xAC, 10],
        ∀ t ∈ lineTokens l, (decodeUTF8 t).isSome)
      ∧ (∃ doc, readStream [0xC3, 0xA9, 44, 97, 13, 10, 0, 44, 0xE2, 0x82, 0xAC, 10]
          = .ok doc)
      ∧ readStream [0xC3, 0xA9, 44, 97, 13, 10, 0, 44, 0xE2, 0x82, 0xAC, 10]
          ≠ .error .unicodeError :=
  valid_content_read [0xC3, 0xA9, 44, 97, 13, 10, 0, 44, 0xE2, 0x82, 0xAC, 10]
    (by decide) (by decide)

end CustomCsv
